import Mathlib

/-!
# Read-through cache and /user fan-out handler

Shallow embedding of `src/main.go` (generic `Cache[T]`, `MockDB`, the `/user`
handler with one goroutine per id) and of `src/cmd/example2/main.go`
(`Library`).

Conventions.
* A Go `map[int]V` is a function `Int → Option V`; a missing key reads as the
  zero value with `ok = false`.
* A Go `func(int) T` may have side effects. A fetcher is therefore a function
  `Int → σ → T × σ` over an explicit environment `σ`; "the fetcher was not
  invoked" is "the environment is unchanged for every fetcher and every `σ`".
* Goroutines are threads of a small-step machine. One step is one statement
  of the source; a schedule is the list of thread indices that take the steps.
-/

namespace Bootcamp

/-! ## Data model (`src/main.go` lines 20-61) -/

/-- User record of `src/main.go` (lines 20-23). -/
structure User where
  ID : Int
  Name : String
deriving DecidableEq, Repr

/-- Go zero value of `User`: `User{ID: 0, Name: ""}`. -/
def User.zero : User := ⟨0, ""⟩

/-- A fetcher `func(int) T` with its side effects on the environment `σ` made explicit. -/
abbrev Fetcher (T σ : Type) : Type := Int → σ → T × σ

/-- MockDB of `src/main.go` (lines 35-37): `users map[int]User`. -/
structure MockDB where
  users : Int → Option User

/-- GetUser (lines 41-44): sleeps 100 ms, then returns `db.users[id]`, which is the
zero `User` for a missing key. The environment is the total time slept, in ms. -/
def MockDB.GetUser (db : MockDB) : Fetcher User Nat :=
  fun id slept => (((db.users id).getD User.zero), slept + 100)

/-- Cache map of `src/main.go` (lines 49-52), as `NewCache` allocates it. The mutex
`mu` is released on every path out of `Get`, so between calls a cache is its `data`
map; the mutex is explicit in the concurrent machine below. -/
structure Cache (T : Type) where
  data : Int → Option T

/-- NewCache (lines 56-61): an empty map. -/
def NewCache (T : Type) : Cache T := ⟨fun _ => none⟩

/-- Map assignment `m[id] = val`. -/
def mapSet {V : Type} (m : Int → Option V) (id : Int) (val : V) : Int → Option V :=
  fun k => if k = id then some val else m k

/-- Outcome of one `Get` call: returned value, cache afterwards, environment afterwards. -/
structure GetResult (T σ : Type) where
  val : T
  cache : Cache T
  env : σ

/-- Get (lines 67-84) run without concurrent callers: first check under the read
lock, second check under the write lock, then fetch and store. -/
def Cache.Get {T σ : Type} (c : Cache T) (id : Int) (fetcher : Fetcher T σ) (w : σ) :
    GetResult T σ :=
  match c.data id with
  | some val => ⟨val, c, w⟩
  | none =>
    match c.data id with
    | some val => ⟨val, c, w⟩
    | none =>
      let r := fetcher id w
      ⟨r.1, ⟨mapSet c.data id r.1⟩, r.2⟩

/-- A sequence of `Get` calls on the same cache, each with its own key and fetcher;
returns the cache and environment after the last call. -/
def runGets {T σ : Type} (c : Cache T) (w : σ) : List (Int × Fetcher T σ) → Cache T × σ
  | [] => (c, w)
  | (id, f) :: rest => runGets (c.Get id f w).cache (c.Get id f w).env rest

/-- The values returned by `n` successive calls `Get(k, f)` on the same cache, with
the cache and environment after the last call. -/
def getN {T σ : Type} (k : Int) (f : Fetcher T σ) : Nat → Cache T → σ → List T × Cache T × σ
  | 0, c, w => ([], c, w)
  | n + 1, c, w =>
    let r := c.Get k f w
    let rest := getN k f n r.cache r.env
    (r.val :: rest.1, rest.2)

/-- A fetcher that returns `v k` and counts its invocations in the environment. -/
def countingFetcher {T : Type} (v : Int → T) : Fetcher T Nat :=
  fun k n => (v k, n + 1)

/-! ## Library boundaries used by the handler: `strconv.Atoi` and `sync.RWMutex` -/

/-- Value of an ASCII decimal digit, `none` for any other character. -/
def digitVal (ch : Char) : Option Nat :=
  if 48 ≤ ch.toNat ∧ ch.toNat ≤ 57 then some (ch.toNat - 48) else none

/-- Decimal value of a run of digits read left to right, `none` if one is not a digit. -/
def parseDigits : List Char → Nat → Option Nat
  | [], acc => some acc
  | ch :: rest, acc =>
    match digitVal ch with
    | none => none
    | some d => parseDigits rest (acc * 10 + d)

/-- Behaviour of Go's `strconv.Atoi` for a 64-bit `int` (line 110): an optional sign
followed by at least one decimal digit, the value within `[-2^63, 2^63 - 1]`;
`none` stands for `err != nil`. -/
def Atoi (s : String) : Option Int :=
  match s.data with
  | [] => none
  | ch :: rest =>
    match (if ch = '-' ∨ ch = '+' then rest else ch :: rest) with
    | [] => none
    | d :: ds =>
      match parseDigits (d :: ds) 0 with
      | none => none
      | some n =>
        if ch = '-' then (if n ≤ 2 ^ 63 then some (-(n : Int)) else none)
        else (if n < 2 ^ 63 then some (n : Int) else none)

/-- State of a `sync.RWMutex`: number of read holders and whether it is write-held.
Go also makes new readers wait while a writer waits; that only removes
interleavings, so the machine below allows every run Go allows. -/
structure RWMutex where
  readers : Nat
  writer : Bool
deriving DecidableEq, Repr

/-- An unlocked mutex, `sync.RWMutex{}`. -/
def RWMutex.free : RWMutex := ⟨0, false⟩

/-- RLock: possible when the mutex is not write-held; `none` means the caller waits. -/
def RWMutex.RLock (m : RWMutex) : Option RWMutex :=
  if m.writer then none else some ⟨m.readers + 1, m.writer⟩

/-- RUnlock: releases one read hold; `none` when there is none to release. -/
def RWMutex.RUnlock (m : RWMutex) : Option RWMutex :=
  if m.readers = 0 then none else some ⟨m.readers - 1, m.writer⟩

/-- Lock: possible when nobody holds the mutex; `none` means the caller waits. -/
def RWMutex.Lock (m : RWMutex) : Option RWMutex :=
  if m.writer ∨ m.readers ≠ 0 then none else some ⟨m.readers, true⟩

/-- Unlock: releases the write hold; `none` when it is not write-held. -/
def RWMutex.Unlock (m : RWMutex) : Option RWMutex :=
  if m.writer then some ⟨m.readers, false⟩ else none

/-! ## Goroutines of the fan-out (`src/main.go` lines 104-119) as a small-step machine -/

/-- Program counter of one goroutine of the fan-out (lines 108-117), with `Get`
(lines 67-84) inlined. Each constructor is the statement about to run. -/
inductive Pc (T : Type) where
  /-- Line 110: `id, err := strconv.Atoi(idStr)`. -/
  | atoi (idStr : String)
  /-- Line 68: `c.mu.RLock()`. -/
  | rlock (id : Int)
  /-- Line 69: `val, ok := c.data[id]` under the read lock. -/
  | check1 (id : Int)
  /-- Lines 70-71: `c.mu.RUnlock(); return val` on a hit. -/
  | runlockHit (val : T)
  /-- Line 73: `c.mu.RUnlock()` on a miss. -/
  | runlockMiss (id : Int)
  /-- Line 75: `c.mu.Lock()`. -/
  | lock (id : Int)
  /-- Line 77: `val, ok := c.data[id]` under the write lock. -/
  | check2 (id : Int)
  /-- Line 81: `val := fetcher(id)`. -/
  | fetch (id : Int)
  /-- Line 82: `c.data[id] = val`. -/
  | store (id : Int) (val : T)
  /-- Line 76, deferred: `c.mu.Unlock()` as `Get` returns `val`. -/
  | unlock (val : T)
  /-- Line 116: `users[i] = user`. -/
  | assign (val : T)
  /-- The goroutine has returned (`wg.Done()` has run). -/
  | done
deriving DecidableEq, Repr

/-- Whether the goroutine has returned. -/
def Pc.isDone {T : Type} : Pc T → Bool
  | .done => true
  | _ => false

/-- Shared state of the goroutines: the cache map, its mutex, the fetcher's
environment, one program counter per goroutine and the result slice `users`. -/
structure State (T σ : Type) where
  data : Int → Option T
  mu : RWMutex
  env : σ
  pcs : List (Pc T)
  users : List T

/-- One statement of goroutine `t`; `none` when `t` cannot run (it waits for the
mutex, has returned, or does not exist). -/
def step {T σ : Type} (fetcher : Fetcher T σ) (t : Nat) (s : State T σ) : Option (State T σ) :=
  match s.pcs[t]? with
  | none => none
  | some (.atoi idStr) =>
    match Atoi idStr with
    | none => some { s with pcs := s.pcs.set t .done }
    | some id => some { s with pcs := s.pcs.set t (.rlock id) }
  | some (.rlock id) =>
    match s.mu.RLock with
    | none => none
    | some m => some { s with mu := m, pcs := s.pcs.set t (.check1 id) }
  | some (.check1 id) =>
    match s.data id with
    | some val => some { s with pcs := s.pcs.set t (.runlockHit val) }
    | none => some { s with pcs := s.pcs.set t (.runlockMiss id) }
  | some (.runlockHit val) =>
    match s.mu.RUnlock with
    | none => none
    | some m => some { s with mu := m, pcs := s.pcs.set t (.assign val) }
  | some (.runlockMiss id) =>
    match s.mu.RUnlock with
    | none => none
    | some m => some { s with mu := m, pcs := s.pcs.set t (.lock id) }
  | some (.lock id) =>
    match s.mu.Lock with
    | none => none
    | some m => some { s with mu := m, pcs := s.pcs.set t (.check2 id) }
  | some (.check2 id) =>
    match s.data id with
    | some val => some { s with pcs := s.pcs.set t (.unlock val) }
    | none => some { s with pcs := s.pcs.set t (.fetch id) }
  | some (.fetch id) =>
    some { s with env := (fetcher id s.env).2, pcs := s.pcs.set t (.store id (fetcher id s.env).1) }
  | some (.store id val) =>
    some { s with data := mapSet s.data id val, pcs := s.pcs.set t (.unlock val) }
  | some (.unlock val) =>
    match s.mu.Unlock with
    | none => none
    | some m => some { s with mu := m, pcs := s.pcs.set t (.assign val) }
  | some (.assign val) =>
    some { s with users := s.users.set t val, pcs := s.pcs.set t .done }
  | some .done => none

/-- Run a schedule: the listed goroutines take one step each, in order; a goroutine
that cannot run when scheduled is passed over. -/
def run {T σ : Type} (fetcher : Fetcher T σ) : List Nat → State T σ → State T σ
  | [], s => s
  | t :: rest, s => run fetcher rest ((step fetcher t s).getD s)

/-- Whether every goroutine has returned, so that `wg.Wait()` returns. -/
def allDone {T σ : Type} (s : State T σ) : Bool := s.pcs.all Pc.isDone

/-- State in which the given goroutines are about to start on a cache with map
`data` and an unlocked mutex; `users` has one zero slot per goroutine. -/
def initState {T σ : Type} (zero : T) (data : Int → Option T) (w : σ) (pcs : List (Pc T)) :
    State T σ :=
  { data := data, mu := RWMutex.free, env := w, pcs := pcs, users := pcs.map fun _ => zero }

/-! ## The `/user` handler (`src/main.go` lines 97-123) -/

/-- What the handler writes to the client. -/
inductive Response where
  /-- `http.Error(w, msg, http.StatusBadRequest)`. -/
  | badRequest (msg : String)
  /-- Status 200 with the JSON encoding of `users`. -/
  | ok (users : List User)
  /-- Run-time failure of `ids[0]` on an empty slice. -/
  | indexFault
deriving DecidableEq, Repr

/-- What a completed fan-out or handler call leaves behind: the cache and the
fetcher's environment (for `db.GetUser`, the time slept). -/
structure FanOutResult (σ : Type) where
  users : List User
  cache : Cache User
  env : σ

/-- The fan-out of the handler (lines 104-119): `users := make([]User, len(ids))`, one
goroutine per index, `wg.Wait()`. `sched` is the order in which the goroutines take
their steps; `none` means `wg.Wait()` has not returned at the end of `sched`. -/
def fanOut {σ : Type} (fetcher : Fetcher User σ) (c : Cache User) (w : σ) (ids : List String)
    (sched : List Nat) : Option (FanOutResult σ) :=
  if allDone (run fetcher sched (initState User.zero c.data w (ids.map Pc.atoi))) then
    some ⟨(run fetcher sched (initState User.zero c.data w (ids.map Pc.atoi))).users,
      ⟨(run fetcher sched (initState User.zero c.data w (ids.map Pc.atoi))).data⟩,
      (run fetcher sched (initState User.zero c.data w (ids.map Pc.atoi))).env⟩
  else none

/-- What one handler call leaves behind: the response, the cache and the time slept. -/
structure HandlerResult where
  resp : Response
  cache : Cache User
  slept : Nat

/-- The `/user` handler (lines 97-123). `query` is `r.URL.Query()["id"]` (`none` when
the parameter is absent), `sched` the order in which the goroutines take their
steps. `none` means `wg.Wait()` has not returned at the end of `sched`. -/
def handler (db : MockDB) (c : Cache User) (slept : Nat) (query : Option (List String))
    (sched : List Nat) : Option HandlerResult :=
  match query with
  | none => some ⟨.badRequest "Missing user id", c, slept⟩
  | some [] => some ⟨.indexFault, c, slept⟩
  | some (first :: more) =>
    if first.length < 1 then some ⟨.badRequest "Missing user id", c, slept⟩
    else
      match fanOut db.GetUser c slept (first :: more) sched with
      | none => none
      | some r => some ⟨.ok r.users, r.cache, r.env⟩

/-- The database built in `main` (lines 87-92). -/
def mainDB : MockDB :=
  ⟨fun id => if id = 1 then some ⟨1, "John Doe"⟩ else if id = 2 then some ⟨2, "Jane Doe"⟩ else none⟩

/-- A schedule that runs whole goroutines one after the other in the given order:
ten steps for each, the length of the longest path through a goroutine. -/
def taskSched (order : List Nat) : List Nat :=
  order.flatMap fun t => List.replicate 10 t

/-! ## Predicates used to reason about the machine -/

/-- The goroutine holds the read lock. -/
def Pc.inR {T : Type} : Pc T → Bool
  | .check1 _ => true
  | .runlockHit _ => true
  | .runlockMiss _ => true
  | _ => false

/-- The goroutine holds the write lock. -/
def Pc.inW {T : Type} : Pc T → Bool
  | .check2 _ => true
  | .fetch _ => true
  | .store _ _ => true
  | .unlock _ => true
  | _ => false

/-- The key a goroutine starting at this program counter asks the cache for, if any. -/
def Pc.want {T : Type} : Pc T → Option Int
  | .atoi idStr => Atoi idStr
  | .rlock id => some id
  | _ => none

/-- Program counters a goroutine can start at: the top of the goroutine body, or
the top of `Get`. -/
def Pc.isEntry {T : Type} : Pc T → Bool
  | .atoi _ => true
  | .rlock _ => true
  | _ => false

/-- Lock accounting: the mutex counts exactly the goroutines inside the read
section and the write section. -/
structure LockInv {T σ : Type} (s : State T σ) : Prop where
  readers : s.pcs.countP Pc.inR = s.mu.readers
  writer : s.pcs.countP Pc.inW = if s.mu.writer then 1 else 0

/-- The transitions of `step` listed one by one: goroutine `t`, standing at the given
program counter in `s`, moves to the given state. -/
inductive Move {T σ : Type} (f : Fetcher T σ) (t : Nat) (s : State T σ) :
    Pc T → State T σ → Prop
  | atoiErr (idStr : String) (h : Atoi idStr = none) :
      Move f t s (.atoi idStr) { s with pcs := s.pcs.set t .done }
  | atoiOk (idStr : String) (id : Int) (h : Atoi idStr = some id) :
      Move f t s (.atoi idStr) { s with pcs := s.pcs.set t (.rlock id) }
  | rlock (id : Int) (m : RWMutex) (h : s.mu.RLock = some m) :
      Move f t s (.rlock id) { s with mu := m, pcs := s.pcs.set t (.check1 id) }
  | check1Hit (id : Int) (val : T) (h : s.data id = some val) :
      Move f t s (.check1 id) { s with pcs := s.pcs.set t (.runlockHit val) }
  | check1Miss (id : Int) (h : s.data id = none) :
      Move f t s (.check1 id) { s with pcs := s.pcs.set t (.runlockMiss id) }
  | runlockHit (val : T) (m : RWMutex) (h : s.mu.RUnlock = some m) :
      Move f t s (.runlockHit val) { s with mu := m, pcs := s.pcs.set t (.assign val) }
  | runlockMiss (id : Int) (m : RWMutex) (h : s.mu.RUnlock = some m) :
      Move f t s (.runlockMiss id) { s with mu := m, pcs := s.pcs.set t (.lock id) }
  | lock (id : Int) (m : RWMutex) (h : s.mu.Lock = some m) :
      Move f t s (.lock id) { s with mu := m, pcs := s.pcs.set t (.check2 id) }
  | check2Hit (id : Int) (val : T) (h : s.data id = some val) :
      Move f t s (.check2 id) { s with pcs := s.pcs.set t (.unlock val) }
  | check2Miss (id : Int) (h : s.data id = none) :
      Move f t s (.check2 id) { s with pcs := s.pcs.set t (.fetch id) }
  | fetch (id : Int) :
      Move f t s (.fetch id)
        { s with env := (f id s.env).2, pcs := s.pcs.set t (.store id (f id s.env).1) }
  | store (id : Int) (val : T) :
      Move f t s (.store id val)
        { s with data := mapSet s.data id val, pcs := s.pcs.set t (.unlock val) }
  | unlock (val : T) (m : RWMutex) (h : s.mu.Unlock = some m) :
      Move f t s (.unlock val) { s with mu := m, pcs := s.pcs.set t (.assign val) }
  | assign (val : T) :
      Move f t s (.assign val) { s with users := s.users.set t val, pcs := s.pcs.set t .done }

/-- The value the fan-out is expected to put in the slot of a goroutine that asks
for `id`: the value cached at the start, else the fetcher's value. -/
def expect {T : Type} (val : Int → T) (c0 : Int → Option T) (id : Int) : T :=
  (c0 id).getD (val id)

/-- The value expected in the slot of a goroutine that starts at `p0`. -/
def slotOf {T : Type} (zero : T) (val : Int → T) (c0 : Int → Option T) (p0 : Pc T) : T :=
  match p0.want with
  | none => zero
  | some id => expect val c0 id

/-- What is known about a goroutine that started at `p0` and stands at the given
program counter, in terms of the cache map and of its own result slot. -/
def ThreadOK {T : Type} (zero : T) (val : Int → T) (data : Int → Option T) (slot : Option T)
    (p0 : Pc T) : Pc T → Prop
  | .atoi idStr => p0 = .atoi idStr ∧ slot = some zero
  | .rlock id => p0.want = some id ∧ slot = some zero
  | .check1 id => p0.want = some id ∧ slot = some zero
  | .runlockHit v => (∃ id, p0.want = some id ∧ data id = some v) ∧ slot = some zero
  | .runlockMiss id => p0.want = some id ∧ slot = some zero
  | .lock id => p0.want = some id ∧ slot = some zero
  | .check2 id => p0.want = some id ∧ slot = some zero
  | .fetch id => p0.want = some id ∧ slot = some zero ∧ data id = none
  | .store id v => p0.want = some id ∧ slot = some zero ∧ data id = none ∧ v = val id
  | .unlock v => (∃ id, p0.want = some id ∧ data id = some v) ∧ slot = some zero
  | .assign v => (∃ id, p0.want = some id ∧ data id = some v) ∧ slot = some zero
  | .done =>
    (p0.want = none → slot = some zero) ∧
    (∀ id, p0.want = some id → ∃ v, data id = some v ∧ slot = some v)

/-- Invariant of a run that started from the goroutines `init` on the cache map `c0`,
with a fetcher whose value for `id` is `val id`. -/
structure ValInv {T σ : Type} (zero : T) (val : Int → T) (c0 : Int → Option T)
    (init : List (Pc T)) (s : State T σ) : Prop where
  lenP : s.pcs.length = init.length
  lenU : s.users.length = init.length
  dataVal : ∀ id v, s.data id = some v → v = expect val c0 id
  dataKeep : ∀ id v, c0 id = some v → s.data id = some v
  dataNew : ∀ id, c0 id = none → s.data id ≠ none → ∃ p0, p0 ∈ init ∧ p0.want = some id
  threads : ∀ (t : Nat) (pc p0 : Pc T), s.pcs[t]? = some pc → init[t]? = some p0 →
    ThreadOK zero val s.data s.users[t]? p0 pc

/-- An upper bound on the number of statements the goroutine has still to run. -/
def Pc.fuel {T : Type} : Pc T → Nat
  | .atoi _ => 10
  | .rlock _ => 9
  | .check1 _ => 8
  | .runlockMiss _ => 7
  | .lock _ => 6
  | .check2 _ => 5
  | .fetch _ => 4
  | .store _ _ => 3
  | .unlock _ => 2
  | .runlockHit _ => 2
  | .assign _ => 1
  | .done => 0

/-- The state of the mutex when the goroutine at this program counter is the only
one that holds it. -/
def Pc.holds {T : Type} (pc : Pc T) : RWMutex :=
  if pc.inR then ⟨1, false⟩ else if pc.inW then ⟨0, true⟩ else RWMutex.free

/-- No goroutine is inside `Get`: each is about to start or has returned, and the
mutex is unlocked. -/
def Quiet {T σ : Type} (s : State T σ) : Prop :=
  s.mu = RWMutex.free ∧ ∀ p, p ∈ s.pcs → p.isEntry = true ∨ p = Pc.done

/-- The statements all goroutines together have still to run, at most. -/
def totalFuel {T σ : Type} (s : State T σ) : Nat := (s.pcs.map Pc.fuel).sum

/-- The value expected in the slot of the id string `idStr` when the fan-out starts on
cache `c` with a fetcher whose value for `id` is `val id`: the zero `User` when
`idStr` does not parse, else the value cached for the id, else the fetcher's. -/
def slotFor (val : Int → User) (c : Cache User) (idStr : String) : User :=
  match Atoi idStr with
  | none => User.zero
  | some id => (c.data id).getD (val id)

/-- The cache agrees with the database: every cached user is what `db.GetUser`
returns for its key. `NewCache` does, and `Get` with `db.GetUser` keeps it so. -/
def Consistent (db : MockDB) (c : Cache User) : Prop :=
  ∀ k v, c.data k = some v → v = (db.users k).getD User.zero

/-- Two concurrent calls `Get(k, f)` on a cache with map `data`: two goroutines at
the top of `Get`, the mutex unlocked. The slots of `users` receive what the calls
return. -/
def twoGets {T σ : Type} (zero : T) (data : Int → Option T) (w : σ) (k : Int) : State T σ :=
  initState zero data w [Pc.rlock k, Pc.rlock k]

/-- A call `Get(k, _)` that is at a point where the key has not been fetched. -/
def Pc.beforeFetch {T : Type} (k : Int) : Pc T → Prop
  | .rlock id => id = k
  | .check1 id => id = k
  | .runlockMiss id => id = k
  | .lock id => id = k
  | .check2 id => id = k
  | .fetch id => id = k
  | _ => False

/-- A call `Get(k, _)` that has seen no value and is outside the write section. -/
def Pc.waiting {T : Type} (k : Int) : Pc T → Prop
  | .rlock id => id = k
  | .check1 id => id = k
  | .runlockMiss id => id = k
  | .lock id => id = k
  | _ => False

/-- A call `Get(k, _)` at a point it can be at once `v1` is stored under `k`. -/
def Pc.afterStore {T : Type} (k : Int) (v1 : T) : Pc T → Prop
  | .rlock id => id = k
  | .check1 id => id = k
  | .runlockMiss id => id = k
  | .lock id => id = k
  | .check2 id => id = k
  | .runlockHit v => v = v1
  | .unlock v => v = v1
  | .assign v => v = v1
  | .done => True
  | _ => False

/-- Invariant of concurrent calls `Get(k, f)` on a cache without `k`, started in
environment `w0`, where `f(k)` run in `w0` returns `v1` and leaves `w1`: nobody has
fetched yet; or one call has fetched and is about to store; or the value is stored. -/
structure KeyInv {T σ : Type} (k : Int) (v1 : T) (w0 w1 : σ) (s : State T σ) : Prop where
  lenU : s.users.length = s.pcs.length
  slots : ∀ (t : Nat), s.pcs[t]? = some Pc.done → s.users[t]? = some v1
  phase :
    (s.data k = none ∧ s.env = w0 ∧
      ∀ (j : Nat) (q : Pc T), s.pcs[j]? = some q → q.beforeFetch k) ∨
    (s.data k = none ∧ s.env = w1 ∧
      ∃ (t : Nat), s.pcs[t]? = some (Pc.store k v1) ∧
        ∀ (j : Nat) (q : Pc T), j ≠ t → s.pcs[j]? = some q → q.waiting k) ∨
    (s.data k = some v1 ∧ s.env = w1 ∧
      ∀ (j : Nat) (q : Pc T), s.pcs[j]? = some q → q.afterStore k v1)

/-! ## Library (`src/cmd/example2/main.go` lines 9-37) -/

/-- Book record of `src/cmd/example2/main.go` (lines 9-13). -/
structure Book where
  ID : Int
  Title : String
  Author : String
deriving DecidableEq, Repr

/-- Go zero value of `Book`. -/
def Book.zero : Book := ⟨0, "", ""⟩

/-- Library (lines 16-18): `books map[int]Book`. -/
structure Library where
  books : Int → Option Book

/-- NewLibrary (lines 21-25). -/
def NewLibrary : Library := ⟨fun _ => none⟩

/-- AddBook (lines 29-31): `l.books[book.ID] = book`. -/
def Library.AddBook (l : Library) (book : Book) : Library :=
  ⟨mapSet l.books book.ID book⟩

/-- GetBook (lines 34-37): `book, exists := l.books[id]`. -/
def Library.GetBook (l : Library) (id : Int) : Book × Bool :=
  match l.books id with
  | some book => (book, true)
  | none => (Book.zero, false)

/-! ## Map assignment -/

theorem mapSet_same {V : Type} (m : Int → Option V) (id : Int) (val : V) :
    mapSet m id val id = some val := by
  simp [mapSet]

theorem mapSet_other {V : Type} (m : Int → Option V) (id k : Int) (val : V) (h : k ≠ id) :
    mapSet m id val k = m k := by
  simp [mapSet, h]

/-! ## The machine: transitions and lock accounting -/

theorem step_move {T σ : Type} {f : Fetcher T σ} {t : Nat} {s s' : State T σ}
    (hs : step f t s = some s') : ∃ pc, s.pcs[t]? = some pc ∧ Move f t s pc s' := by
  unfold step at hs
  split at hs
  all_goals (try split at hs)
  all_goals (try (cases hs))
  all_goals refine ⟨_, by assumption, ?_⟩
  all_goals first
    | exact Move.fetch _
    | exact Move.store _ _
    | exact Move.assign _
    | (constructor; assumption)

theorem countP_set_eq {α : Type} (p : α → Bool) (l : List α) (t : Nat) (a b : α)
    (h : l[t]? = some a) :
    (l.set t b).countP p = l.countP p + (if p b then 1 else 0) - (if p a then 1 else 0) := by
  obtain ⟨ht, rfl⟩ := List.getElem?_eq_some_iff.mp h
  have h1 := List.countP_set p l t b ht
  have h2 := List.boole_getElem_le_countP p l t ht
  omega

theorem countP_pos_of_getElem? {α : Type} (p : α → Bool) (l : List α) (t : Nat) (a : α)
    (h : l[t]? = some a) (hp : p a = true) : 0 < l.countP p := by
  obtain ⟨ht, rfl⟩ := List.getElem?_eq_some_iff.mp h
  have h2 := List.boole_getElem_le_countP p l t ht
  rw [hp] at h2
  simpa using h2

theorem RWMutex.RLock_some {m m' : RWMutex} (h : m.RLock = some m') :
    m.writer = false ∧ m' = ⟨m.readers + 1, false⟩ := by
  unfold RWMutex.RLock at h
  split at h
  · cases h
  · rename_i hw
    cases h
    simp at hw
    simp [hw]

theorem RWMutex.RUnlock_some {m m' : RWMutex} (h : m.RUnlock = some m') :
    m.readers ≠ 0 ∧ m' = ⟨m.readers - 1, m.writer⟩ := by
  unfold RWMutex.RUnlock at h
  split at h
  · cases h
  · rename_i hr
    cases h
    exact ⟨hr, rfl⟩

theorem RWMutex.Lock_some {m m' : RWMutex} (h : m.Lock = some m') :
    m.writer = false ∧ m.readers = 0 ∧ m' = ⟨0, true⟩ := by
  unfold RWMutex.Lock at h
  split at h
  · cases h
  · rename_i hr
    cases h
    simp at hr
    simp [hr]

theorem RWMutex.Unlock_some {m m' : RWMutex} (h : m.Unlock = some m') :
    m.writer = true ∧ m' = ⟨m.readers, false⟩ := by
  unfold RWMutex.Unlock at h
  split at h
  · rename_i hw
    cases h
    exact ⟨hw, rfl⟩
  · cases h

theorem LockInv.lock_move {T σ : Type} {f : Fetcher T σ} {t : Nat} {s s' : State T σ} {pc : Pc T}
    (h : LockInv s) (hpc : s.pcs[t]? = some pc) (hm : Move f t s pc s') : LockInv s' := by
  obtain ⟨hr, hw⟩ := h
  have hposR := countP_pos_of_getElem? Pc.inR s.pcs t pc hpc
  have hposW := countP_pos_of_getElem? Pc.inW s.pcs t pc hpc
  cases hwr : s.mu.writer <;> simp only [hwr] at hw <;> cases hm
  all_goals
    first
    | (rename_i m hmu
       first
       | obtain ⟨h1, rfl⟩ := RWMutex.RLock_some hmu
       | obtain ⟨h1, rfl⟩ := RWMutex.RUnlock_some hmu
       | obtain ⟨h1, h2, rfl⟩ := RWMutex.Lock_some hmu
       | obtain ⟨h1, rfl⟩ := RWMutex.Unlock_some hmu)
    | skip
  all_goals
    constructor <;>
    simp only [countP_set_eq _ _ _ _ _ hpc] <;>
    generalize List.countP Pc.inR s.pcs = cr at * <;>
    generalize List.countP Pc.inW s.pcs = cw at * <;>
    simp [Pc.inR, Pc.inW, hwr] at * <;>
    omega

theorem LockInv.exclusive {T σ : Type} {s : State T σ} {t : Nat} {pc : Pc T}
    (h : LockInv s) (hpc : s.pcs[t]? = some pc) (hW : pc.inW = true)
    (j : Nat) (q : Pc T) (hj : j ≠ t) (hq : s.pcs[j]? = some q) : q.inW = false := by
  have hw := h.writer
  have hpos := countP_pos_of_getElem? Pc.inW s.pcs t pc hpc hW
  have hset := countP_set_eq Pc.inW s.pcs t pc Pc.done hpc
  have hzero : (s.pcs.set t Pc.done).countP Pc.inW = 0 := by
    rw [hset, hW]
    have : (Pc.inW (Pc.done : Pc T)) = false := rfl
    rw [this]
    split at hw <;> simp <;> omega
  rw [List.countP_eq_zero] at hzero
  have hmem : q ∈ s.pcs.set t Pc.done := by
    apply List.getElem?_mem (n := j)
    rw [List.getElem?_set_ne (Ne.symm hj)]
    exact hq
  have := hzero q hmem
  simpa using this

theorem ThreadOK.frame {T : Type} {zero : T} {val : Int → T} {data data' : Int → Option T}
    {slot : Option T} {p0 pc : Pc T} (h : ThreadOK zero val data slot p0 pc)
    (hW : pc.inW = false) (hmono : ∀ id v, data id = some v → data' id = some v) :
    ThreadOK zero val data' slot p0 pc := by
  cases pc <;> simp only [ThreadOK, Pc.inW] at h hW ⊢
  all_goals first
    | exact h
    | (obtain ⟨⟨id, h1, h2⟩, h3⟩ := h
       exact ⟨⟨id, h1, hmono _ _ h2⟩, h3⟩)
    | (refine ⟨h.1, fun id hid => ?_⟩
       obtain ⟨v, h1, h2⟩ := h.2 id hid
       exact ⟨v, hmono _ _ h1, h2⟩)
    | cases hW

/-! ## The machine: values in the cache and in the result slots -/

theorem getElem?_some_of_length_eq {α β : Type} {l : List α} {l' : List β} {t : Nat} {a : α}
    (h : l[t]? = some a) (hlen : l.length = l'.length) : ∃ b, l'[t]? = some b := by
  obtain ⟨ht, _⟩ := List.getElem?_eq_some_iff.mp h
  exact ⟨l'[t], List.getElem?_eq_getElem (by omega)⟩

theorem ValInv.val_init {T σ : Type} (zero : T) (val : Int → T) (c0 : Int → Option T) (w : σ)
    (init : List (Pc T)) (hentry : ∀ p, p ∈ init → p.isEntry = true) :
    ValInv zero val c0 init (initState zero c0 w init) := by
  refine ⟨rfl, by simp [initState], ?_, fun _ _ h => h, ?_, ?_⟩
  · intro id v h
    simp only [initState] at h
    simp [expect, h]
  · intro id h h'
    exact absurd h h'
  · intro t pc p0 hpc hp0
    simp only [initState] at hpc
    rw [hpc] at hp0
    cases hp0
    have hslot : (initState zero c0 w init).users[t]? = some zero := by
      obtain ⟨ht, _⟩ := List.getElem?_eq_some_iff.mp hpc
      simp [initState, ht]
    rw [hslot]
    have he := hentry pc (List.getElem?_mem hpc)
    cases pc <;> simp [Pc.isEntry] at he <;> simp [ThreadOK, Pc.want]

theorem ValInv.set_pc {T σ : Type} {zero : T} {val : Int → T} {c0 : Int → Option T}
    {init : List (Pc T)} {s : State T σ} {t : Nat} {pc : Pc T}
    (h : ValInv zero val c0 init s) (hpc : s.pcs[t]? = some pc) (pc' : Pc T)
    (hT : ∀ p0, init[t]? = some p0 → ThreadOK zero val s.data s.users[t]? p0 pc →
      ThreadOK zero val s.data s.users[t]? p0 pc')
    (mu' : RWMutex) (env' : σ) :
    ValInv zero val c0 init
      { data := s.data, mu := mu', env := env', pcs := s.pcs.set t pc', users := s.users } := by
  refine ⟨by simp [h.lenP], h.lenU, h.dataVal, h.dataKeep, h.dataNew, ?_⟩
  intro j q p0 hq hp0
  simp only at hq ⊢
  by_cases hj : j = t
  · subst hj
    obtain ⟨ht, _⟩ := List.getElem?_eq_some_iff.mp hpc
    rw [List.getElem?_set_self ht] at hq
    cases hq
    exact hT p0 hp0 (h.threads j pc p0 hpc hp0)
  · rw [List.getElem?_set_ne (Ne.symm hj)] at hq
    exact h.threads j q p0 hq hp0

theorem ValInv.val_move {T σ : Type} {zero : T} {val : Int → T} {c0 : Int → Option T}
    {init : List (Pc T)} {f : Fetcher T σ} {s s' : State T σ} {t : Nat} {pc : Pc T}
    (h : ValInv zero val c0 init s) (hl : LockInv s) (hdet : ∀ id w, (f id w).1 = val id)
    (hpc : s.pcs[t]? = some pc) (hm : Move f t s pc s') : ValInv zero val c0 init s' := by
  cases hm with
  | atoiErr idStr hA =>
    refine h.set_pc hpc _ (fun p0 _ hT => ?_) _ _
    simp only [ThreadOK] at hT ⊢
    obtain ⟨rfl, hs⟩ := hT
    simp [Pc.want, hA, hs]
  | atoiOk idStr id hA =>
    refine h.set_pc hpc _ (fun p0 _ hT => ?_) _ _
    simp only [ThreadOK] at hT ⊢
    obtain ⟨rfl, hs⟩ := hT
    simp [Pc.want, hA, hs]
  | rlock id m hmu => refine h.set_pc hpc _ (fun p0 _ hT => ?_) _ _; exact hT
  | check1Hit id v hd =>
    refine h.set_pc hpc _ (fun p0 _ hT => ?_) _ _
    simp only [ThreadOK] at hT ⊢
    exact ⟨⟨id, hT.1, hd⟩, hT.2⟩
  | check1Miss id hd => refine h.set_pc hpc _ (fun p0 _ hT => ?_) _ _; exact hT
  | runlockHit v m hmu => refine h.set_pc hpc _ (fun p0 _ hT => ?_) _ _; exact hT
  | runlockMiss id m hmu => refine h.set_pc hpc _ (fun p0 _ hT => ?_) _ _; exact hT
  | lock id m hmu => refine h.set_pc hpc _ (fun p0 _ hT => ?_) _ _; exact hT
  | check2Hit id v hd =>
    refine h.set_pc hpc _ (fun p0 _ hT => ?_) _ _
    simp only [ThreadOK] at hT ⊢
    exact ⟨⟨id, hT.1, hd⟩, hT.2⟩
  | check2Miss id hd =>
    refine h.set_pc hpc _ (fun p0 _ hT => ?_) _ _
    simp only [ThreadOK] at hT ⊢
    exact ⟨hT.1, hT.2, hd⟩
  | fetch id =>
    refine h.set_pc hpc _ (fun p0 _ hT => ?_) _ _
    simp only [ThreadOK] at hT ⊢
    exact ⟨hT.1, hT.2.1, hT.2.2, hdet _ _⟩
  | store id v =>
    obtain ⟨p0, hp0⟩ := getElem?_some_of_length_eq hpc h.lenP
    have hT := h.threads t _ p0 hpc hp0
    simp only [ThreadOK] at hT
    obtain ⟨hwant, hslot, hnone, hv⟩ := hT
    have hmono : ∀ k u, s.data k = some u → mapSet s.data id v k = some u := by
      intro k u hk
      have hne : k ≠ id := by
        intro e
        rw [e, hnone] at hk
        cases hk
      rw [mapSet_other _ _ _ _ hne]
      exact hk
    have hc0 : c0 id = none := by
      cases hc : c0 id with
      | none => rfl
      | some u =>
        rw [h.dataKeep id u hc] at hnone
        cases hnone
    refine ⟨by simp [h.lenP], h.lenU, ?_, fun k u hk => hmono k u (h.dataKeep k u hk), ?_, ?_⟩
    · intro k u hk
      simp only at hk
      by_cases hkid : k = id
      · subst hkid
        rw [mapSet_same] at hk
        cases hk
        simp [expect, hc0, hv]
      · rw [mapSet_other _ _ _ _ hkid] at hk
        exact h.dataVal k u hk
    · intro k hk hk'
      simp only at hk'
      by_cases hkid : k = id
      · subst hkid
        exact ⟨p0, List.getElem?_mem hp0, hwant⟩
      · rw [mapSet_other _ _ _ _ hkid] at hk'
        exact h.dataNew k hk hk'
    · intro j q p0' hq hp0'
      simp only at hq ⊢
      by_cases hj : j = t
      · subst hj
        obtain ⟨ht, _⟩ := List.getElem?_eq_some_iff.mp hpc
        rw [List.getElem?_set_self ht] at hq
        cases hq
        rw [hp0] at hp0'
        cases hp0'
        simp only [ThreadOK]
        exact ⟨⟨id, hwant, mapSet_same _ _ _⟩, hslot⟩
      · rw [List.getElem?_set_ne (Ne.symm hj)] at hq
        exact (h.threads j q p0' hq hp0').frame (hl.exclusive hpc rfl j q hj hq) hmono
  | unlock v m hmu => refine h.set_pc hpc _ (fun p0 _ hT => ?_) _ _; exact hT
  | assign v =>
    obtain ⟨p0, hp0⟩ := getElem?_some_of_length_eq hpc h.lenP
    have hT := h.threads t _ p0 hpc hp0
    simp only [ThreadOK] at hT
    obtain ⟨⟨id, hwant, hd⟩, -⟩ := hT
    refine ⟨by simp [h.lenP], by simp [h.lenU], h.dataVal, h.dataKeep, h.dataNew, ?_⟩
    intro j q p0' hq hp0'
    simp only at hq ⊢
    by_cases hj : j = t
    · subst hj
      obtain ⟨ht, _⟩ := List.getElem?_eq_some_iff.mp hpc
      rw [List.getElem?_set_self ht] at hq
      cases hq
      rw [hp0] at hp0'
      cases hp0'
      have htu : j < s.users.length := by rw [h.lenU, ← h.lenP]; exact ht
      rw [List.getElem?_set_self htu]
      simp only [ThreadOK]
      refine ⟨fun hn => ?_, fun id' hid' => ?_⟩
      · rw [hn] at hwant
        cases hwant
      · rw [hwant] at hid'
        cases hid'
        exact ⟨v, hd, rfl⟩
    · rw [List.getElem?_set_ne (Ne.symm hj)] at hq
      rw [List.getElem?_set_ne (Ne.symm hj)]
      exact h.threads j q p0' hq hp0'

/-! ## Sequential behaviour of `Cache.Get` -/

theorem Cache.Get_hit {T σ : Type} (c : Cache T) (id : Int) (f : Fetcher T σ) (w : σ) (v : T)
    (h : c.data id = some v) : c.Get id f w = ⟨v, c, w⟩ := by
  simp [Cache.Get, h]

theorem Cache.Get_miss {T σ : Type} (c : Cache T) (id : Int) (f : Fetcher T σ) (w : σ)
    (h : c.data id = none) :
    c.Get id f w = ⟨(f id w).1, ⟨mapSet c.data id (f id w).1⟩, (f id w).2⟩ := by
  simp [Cache.Get, h]

theorem Cache.Get_keeps {T σ : Type} (c : Cache T) (id : Int) (f : Fetcher T σ) (w : σ)
    (k : Int) (v : T) (h : c.data k = some v) : (c.Get id f w).cache.data k = some v := by
  cases hid : c.data id with
  | some u => rw [Cache.Get_hit c id f w u hid]; exact h
  | none =>
    rw [Cache.Get_miss c id f w hid]
    have hne : k ≠ id := by
      intro e
      rw [e, hid] at h
      cases h
    simp [mapSet_other _ _ _ _ hne, h]

theorem runGets_keeps {T σ : Type} (calls : List (Int × Fetcher T σ)) (c : Cache T) (w : σ)
    (k : Int) (v : T) (h : c.data k = some v) : (runGets c w calls).1.data k = some v := by
  induction calls generalizing c w with
  | nil => simpa [runGets] using h
  | cons call rest ih =>
    obtain ⟨id, f⟩ := call
    simp only [runGets]
    exact ih _ _ (Cache.Get_keeps c id f w k v h)

theorem getN_hit {T σ : Type} (k : Int) (f : Fetcher T σ) (n : Nat) (c : Cache T) (w : σ)
    (v : T) (h : c.data k = some v) : getN k f n c w = (List.replicate n v, c, w) := by
  induction n with
  | zero => simp [getN]
  | succ n ih => simp [getN, Cache.Get_hit c k f w v h, ih, List.replicate_succ]

/-- C1: `Get(id, f)` on a cache that holds `id` returns the held value and leaves
cache and environment as they were; on a cache that does not hold `id` it returns
`f(id)`, runs `f` once, and leaves the cache with `data[id] = f(id)` and every other
key as it was. -/
theorem get_contract {T σ : Type} (c : Cache T) (id : Int) (f : Fetcher T σ) (w : σ) :
    (∀ v, c.data id = some v → c.Get id f w = ⟨v, c, w⟩) ∧
    (c.data id = none →
      (c.Get id f w).val = (f id w).1 ∧
      (c.Get id f w).cache.data id = some (f id w).1 ∧
      (c.Get id f w).env = (f id w).2 ∧
      ∀ k, k ≠ id → (c.Get id f w).cache.data k = c.data k) := by
  refine ⟨fun v h => Cache.Get_hit c id f w v h, fun h => ?_⟩
  rw [Cache.Get_miss c id f w h]
  exact ⟨rfl, mapSet_same _ _ _, rfl, fun k hk => mapSet_other _ _ _ _ hk⟩

/-- C2: after a `Get(k, f)` on a cache without `k` returned `v`, and after any
sequence of further `Get` calls, every `Get(k, g)` returns `v`, leaves the cache as
it is and leaves the environment of `g` untouched (so `g` was not invoked). -/
theorem warm_path {T σ τ : Type} (c : Cache T) (w : σ) (k : Int) (f : Fetcher T σ)
    (between : List (Int × Fetcher T σ)) (g : Fetcher T τ) (u : τ)
    (habsent : c.data k = none) :
    (runGets (c.Get k f w).cache (c.Get k f w).env between).1.Get k g u =
      ⟨(c.Get k f w).val, (runGets (c.Get k f w).cache (c.Get k f w).env between).1, u⟩ := by
  apply Cache.Get_hit
  apply runGets_keeps
  rw [Cache.Get_miss c k f w habsent]
  exact mapSet_same _ _ _

/-- C5: a key present before a `Get` call is present after it with the same value,
and so it is after any sequence of `Get` calls. -/
theorem entries_kept {T σ : Type} (c : Cache T) (w : σ) (k : Int) (v : T)
    (hpresent : c.data k = some v) :
    (∀ (id : Int) (f : Fetcher T σ), (c.Get id f w).cache.data k = some v) ∧
    (∀ calls : List (Int × Fetcher T σ), (runGets c w calls).1.data k = some v) :=
  ⟨fun id f => Cache.Get_keeps c id f w k v hpresent,
   fun calls => runGets_keeps calls c w k v hpresent⟩

/-- C6: `N ≥ 1` successive calls `Get(k, f)` on a cache without `k` all return
`f(k)` as computed by the first call, and the environment afterwards is the one
left by a single run of `f`; a counting fetcher ends at one more than it started. -/
theorem fetch_once {T σ : Type} (c : Cache T) (k : Int) (f : Fetcher T σ) (w : σ) (N : Nat)
    (habsent : c.data k = none) (hN : 1 ≤ N) :
    (getN k f N c w).1 = List.replicate N (f k w).1 ∧
    (getN k f N c w).2.2 = (f k w).2 ∧
    ∀ (v : Int → T) (n : Nat), (getN k (countingFetcher v) N c n).2.2 = n + 1 := by
  obtain ⟨m, rfl⟩ : ∃ m, N = m + 1 := ⟨N - 1, by omega⟩
  have key : ∀ {ρ : Type} (g : Fetcher T ρ) (x : ρ),
      getN k g (m + 1) c x =
        (List.replicate (m + 1) (g k x).1, ⟨mapSet c.data k (g k x).1⟩, (g k x).2) := by
    intro ρ g x
    simp only [getN, Cache.Get_miss c k g x habsent]
    rw [getN_hit k g m _ _ (g k x).1 (mapSet_same _ _ _)]
    simp [List.replicate_succ]
  refine ⟨by rw [key], by rw [key], fun v n => ?_⟩
  rw [key]
  rfl

/-! ## Library -/

/-- C10: after `AddBook(b)`, `GetBook(b.ID)` returns `(b, true)`, every other id
reads as before, and a new library returns `(zero Book, false)` for every id. -/
theorem library_add_get (l : Library) (b : Book) :
    (l.AddBook b).GetBook b.ID = (b, true) ∧
    (∀ id, id ≠ b.ID → (l.AddBook b).GetBook id = l.GetBook id) ∧
    (∀ id, NewLibrary.GetBook id = (Book.zero, false)) := by
  refine ⟨?_, fun id hid => ?_, fun id => rfl⟩
  · simp [Library.AddBook, Library.GetBook, mapSet]
  · simp [Library.AddBook, Library.GetBook, mapSet, hid]

theorem LockInv.lock_init {T σ : Type} (zero : T) (c0 : Int → Option T) (w : σ)
    (init : List (Pc T)) (hentry : ∀ p, p ∈ init → p.isEntry = true) :
    LockInv (initState zero c0 w init) := by
  constructor
  · simp only [initState, RWMutex.free]
    rw [List.countP_eq_zero]
    intro p hp
    have := hentry p hp
    cases p <;> simp [Pc.isEntry] at this <;> simp [Pc.inR]
  · simp only [initState, RWMutex.free, Bool.false_eq_true, if_false]
    rw [List.countP_eq_zero]
    intro p hp
    have := hentry p hp
    cases p <;> simp [Pc.isEntry] at this <;> simp [Pc.inW]

/-- The invariants of a run, together. -/
theorem run_inv {T σ : Type} {zero : T} {val : Int → T} {c0 : Int → Option T}
    {init : List (Pc T)} {f : Fetcher T σ} (hdet : ∀ id w, (f id w).1 = val id)
    (sched : List Nat) (s : State T σ) (hv : ValInv zero val c0 init s) (hl : LockInv s) :
    ValInv zero val c0 init (run f sched s) ∧ LockInv (run f sched s) := by
  induction sched generalizing s with
  | nil => exact ⟨hv, hl⟩
  | cons t rest ih =>
    simp only [run]
    cases hs : step f t s with
    | none => exact ih s hv hl
    | some s' =>
      obtain ⟨pc, hpc, hm⟩ := step_move hs
      exact ih s' (hv.val_move hl hdet hpc hm) (hl.lock_move hpc hm)

theorem allDone_getElem? {T σ : Type} {s : State T σ} (h : allDone s = true) {t : Nat}
    {pc : Pc T} (hpc : s.pcs[t]? = some pc) : pc = Pc.done := by
  simp only [allDone, List.all_eq_true] at h
  have := h pc (List.getElem?_mem hpc)
  cases pc <;> simp [Pc.isDone] at this
  rfl

theorem ValInv.users_of_allDone {T σ : Type} {zero : T} {val : Int → T} {c0 : Int → Option T}
    {init : List (Pc T)} {s : State T σ} (h : ValInv zero val c0 init s)
    (hdone : allDone s = true) : s.users = init.map (slotOf zero val c0) := by
  apply List.ext_getElem?
  intro t
  by_cases ht : t < init.length
  · have hp0 : init[t]? = some init[t] := List.getElem?_eq_getElem ht
    have htp : t < s.pcs.length := by rw [h.lenP]; exact ht
    have hpc : s.pcs[t]? = some s.pcs[t] := List.getElem?_eq_getElem htp
    have hd := allDone_getElem? hdone hpc
    rw [hd] at hpc
    have hT := h.threads t _ _ hpc hp0
    simp only [ThreadOK] at hT
    rw [List.getElem?_map, hp0, Option.map_some']
    unfold slotOf
    cases hw : init[t].want with
    | none => simpa using hT.1 hw
    | some id =>
      obtain ⟨v, hv1, hv2⟩ := hT.2 id hw
      rw [hv2, h.dataVal id v hv1]
  · have h1 : s.users.length ≤ t := by rw [h.lenU]; omega
    have h2 : (init.map (slotOf zero val c0)).length ≤ t := by simp; omega
    rw [List.getElem?_eq_none h1, List.getElem?_eq_none h2]

theorem ValInv.data_of_allDone {T σ : Type} {zero : T} {val : Int → T} {c0 : Int → Option T}
    {init : List (Pc T)} {s : State T σ} (h : ValInv zero val c0 init s)
    (hdone : allDone s = true) (id : Int) :
    (∀ v, c0 id = some v → s.data id = some v) ∧
    (c0 id = none → (∃ p0, p0 ∈ init ∧ p0.want = some id) → s.data id = some (val id)) ∧
    (c0 id = none → (¬ ∃ p0, p0 ∈ init ∧ p0.want = some id) → s.data id = none) := by
  refine ⟨fun v hv => h.dataKeep id v hv, fun hc ⟨p0, hmem, hw⟩ => ?_, fun hc hno => ?_⟩
  · obtain ⟨t, hp0⟩ := List.mem_iff_getElem?.mp hmem
    obtain ⟨pc, hpc⟩ := getElem?_some_of_length_eq hp0 h.lenP.symm
    have hd := allDone_getElem? hdone hpc
    rw [hd] at hpc
    have hT := h.threads t _ _ hpc hp0
    simp only [ThreadOK] at hT
    obtain ⟨v, hv1, -⟩ := hT.2 id hw
    rw [hv1, h.dataVal id v hv1]
    simp [expect, hc]
  · by_contra hne
    exact hno (h.dataNew id hc hne)

/-! ## The machine: every goroutine can be run to its end -/

theorem Move.next {T σ : Type} {f : Fetcher T σ} {s s' : State T σ} {t : Nat} {pc : Pc T}
    (hm : Move f t s pc s') :
    ∃ pc', s'.pcs = s.pcs.set t pc' ∧ s'.users.length = s.users.length ∧
      pc'.fuel < pc.fuel ∧ (s.mu = pc.holds → s'.mu = pc'.holds) := by
  cases hm
  all_goals
    first
    | (rename_i m hop
       first
       | obtain ⟨h1, rfl⟩ := RWMutex.RLock_some hop
       | obtain ⟨h1, rfl⟩ := RWMutex.RUnlock_some hop
       | obtain ⟨h1, h2, rfl⟩ := RWMutex.Lock_some hop
       | obtain ⟨h1, rfl⟩ := RWMutex.Unlock_some hop)
    | skip
  all_goals
    refine ⟨_, rfl, by simp, by simp [Pc.fuel], fun hmu => ?_⟩
    simp [Pc.holds, Pc.inR, Pc.inW, RWMutex.free] at hmu ⊢
    try simp [hmu]

theorem solo_enabled {T σ : Type} (f : Fetcher T σ) {s : State T σ} {t : Nat} {pc : Pc T}
    (hpc : s.pcs[t]? = some pc) (hmu : s.mu = pc.holds) (hnd : pc ≠ Pc.done) :
    ∃ s', step f t s = some s' := by
  cases pc
  case done => exact absurd rfl hnd
  all_goals
    simp only [Pc.holds, Pc.inR, Pc.inW, RWMutex.free, Bool.false_eq_true, if_false,
      if_true] at hmu
    simp only [step, hpc, hmu, RWMutex.RLock, RWMutex.RUnlock, RWMutex.Lock, RWMutex.Unlock]
    first
      | exact ⟨_, rfl⟩
      | (split <;> exact ⟨_, rfl⟩)

theorem set_of_getElem? {α : Type} {l : List α} {t : Nat} {a : α} (h : l[t]? = some a) :
    l.set t a = l := by
  apply List.ext_getElem?
  intro j
  by_cases hj : t = j
  · subst hj
    obtain ⟨ht, _⟩ := List.getElem?_eq_some_iff.mp h
    rw [List.getElem?_set_self ht, h]
  · rw [List.getElem?_set_ne hj]

theorem step_done {T σ : Type} (f : Fetcher T σ) {s : State T σ} {t : Nat}
    (hpc : s.pcs[t]? = some Pc.done) : step f t s = none := by
  simp [step, hpc]

theorem step_absent {T σ : Type} (f : Fetcher T σ) {s : State T σ} {t : Nat}
    (hpc : s.pcs[t]? = none) : step f t s = none := by
  simp [step, hpc]

theorem solo_run {T σ : Type} (f : Fetcher T σ) (t : Nat) (n : Nat) :
    ∀ (s : State T σ) (pc : Pc T), s.pcs[t]? = some pc → s.mu = pc.holds → pc.fuel ≤ n →
      (run f (List.replicate n t) s).pcs = s.pcs.set t Pc.done ∧
      (run f (List.replicate n t) s).mu = RWMutex.free := by
  induction n with
  | zero =>
    intro s pc hpc hmu hfuel
    have hd : pc = Pc.done := by
      cases pc <;> simp [Pc.fuel] at hfuel
      rfl
    subst hd
    simp only [List.replicate_zero, run]
    exact ⟨(set_of_getElem? hpc).symm, by simpa [Pc.holds, Pc.inR, Pc.inW] using hmu⟩
  | succ n ih =>
    intro s pc hpc hmu hfuel
    simp only [List.replicate_succ, run]
    by_cases hd : pc = Pc.done
    · subst hd
      rw [step_done f hpc, Option.getD_none]
      exact ih s _ hpc hmu (by simp [Pc.fuel])
    · obtain ⟨s', hs⟩ := solo_enabled f hpc hmu hd
      obtain ⟨pc1, hpc1, hm⟩ := step_move hs
      rw [hpc] at hpc1
      cases hpc1
      obtain ⟨pc', hpcs, -, hlt, hmu'⟩ := hm.next
      rw [hs, Option.getD_some]
      obtain ⟨ht, _⟩ := List.getElem?_eq_some_iff.mp hpc
      have hpc' : s'.pcs[t]? = some pc' := by
        rw [hpcs, List.getElem?_set_self ht]
      obtain ⟨h1, h2⟩ := ih s' pc' hpc' (hmu' hmu) (by omega)
      refine ⟨?_, h2⟩
      rw [h1, hpcs, List.set_set]

theorem run_append {T σ : Type} (f : Fetcher T σ) (a b : List Nat) (s : State T σ) :
    run f (a ++ b) s = run f b (run f a s) := by
  induction a generalizing s with
  | nil => rfl
  | cons t rest ih =>
    simp only [List.cons_append, run]
    exact ih _

theorem run_replicate_absent {T σ : Type} (f : Fetcher T σ) {s : State T σ} {t : Nat}
    (hpc : s.pcs[t]? = none) (n : Nat) : run f (List.replicate n t) s = s := by
  induction n with
  | zero => rfl
  | succ n ih => simp only [List.replicate_succ, run, step_absent f hpc, Option.getD_none, ih]

theorem Quiet.task {T σ : Type} (f : Fetcher T σ) {s : State T σ} (hq : Quiet s) (t : Nat) :
    (run f (List.replicate 10 t) s).pcs = s.pcs.set t Pc.done ∧
    (run f (List.replicate 10 t) s).mu = RWMutex.free := by
  cases hpc : s.pcs[t]? with
  | none =>
    rw [run_replicate_absent f hpc]
    have hlen : s.pcs.length ≤ t := by
      by_contra hlt
      rw [List.getElem?_eq_getElem (by omega)] at hpc
      cases hpc
    exact ⟨(List.set_eq_of_length_le hlen).symm, hq.1⟩
  | some pc =>
    have hp := hq.2 pc (List.getElem?_mem hpc)
    have hholds : pc.holds = RWMutex.free ∧ pc.fuel ≤ 10 := by
      rcases hp with hp | hp
      · cases pc <;> simp [Pc.isEntry] at hp <;> simp [Pc.holds, Pc.inR, Pc.inW, Pc.fuel]
      · subst hp
        simp [Pc.holds, Pc.inR, Pc.inW, Pc.fuel]
    exact solo_run f t 10 s pc hpc (by rw [hq.1, hholds.1]) hholds.2

theorem Quiet.run_tasks {T σ : Type} (f : Fetcher T σ) (order : List Nat) :
    ∀ s : State T σ, Quiet s →
      Quiet (run f (taskSched order) s) ∧
      (run f (taskSched order) s).pcs.length = s.pcs.length ∧
      ∀ j, (j ∈ order ∨ s.pcs[j]? = some Pc.done) → j < s.pcs.length →
        (run f (taskSched order) s).pcs[j]? = some Pc.done := by
  induction order with
  | nil =>
    intro s hq
    refine ⟨hq, rfl, fun j hj _ => ?_⟩
    rcases hj with hj | hj
    · cases hj
    · exact hj
  | cons t rest ih =>
    intro s hq
    have hsplit : run f (taskSched (t :: rest)) s =
        run f (taskSched rest) (run f (List.replicate 10 t) s) := by
      simp only [taskSched, List.flatMap_cons, run_append]
    rw [hsplit]
    obtain ⟨hpcs, hmu⟩ := hq.task f t
    have hq1 : Quiet (run f (List.replicate 10 t) s) := by
      refine ⟨hmu, fun p hp => ?_⟩
      rw [hpcs] at hp
      rcases List.mem_or_eq_of_mem_set hp with h | h
      · exact hq.2 p h
      · exact Or.inr h
    obtain ⟨h1, h2, h3⟩ := ih _ hq1
    refine ⟨h1, by rw [h2, hpcs, List.length_set], fun j hj hlt => ?_⟩
    apply h3 j _ (by rw [hpcs, List.length_set]; exact hlt)
    rw [hpcs]
    by_cases hjt : t = j
    · subst hjt
      exact Or.inr (List.getElem?_set_self hlt)
    · rw [List.getElem?_set_ne hjt]
      rcases hj with hj | hj
      · rcases List.mem_cons.mp hj with h | h
        · exact absurd h.symm hjt
        · exact Or.inl h
      · exact Or.inr hj

theorem Quiet.quiet_init {T σ : Type} (zero : T) (c0 : Int → Option T) (w : σ)
    (init : List (Pc T)) (hentry : ∀ p, p ∈ init → p.isEntry = true) :
    Quiet (initState zero c0 w init : State T σ) :=
  ⟨rfl, fun p hp => Or.inl (hentry p hp)⟩

theorem allDone_of_forall {T σ : Type} {s : State T σ}
    (h : ∀ j, j < s.pcs.length → s.pcs[j]? = some Pc.done) : allDone s = true := by
  simp only [allDone, List.all_eq_true]
  intro p hp
  obtain ⟨j, hj⟩ := List.mem_iff_getElem?.mp hp
  obtain ⟨hlt, _⟩ := List.getElem?_eq_some_iff.mp hj
  rw [h j hlt] at hj
  cases hj
  rfl

theorem taskSched_allDone {T σ : Type} (f : Fetcher T σ) (zero : T) (c0 : Int → Option T)
    (w : σ) (init : List (Pc T)) (hentry : ∀ p, p ∈ init → p.isEntry = true)
    (order : List Nat) (hall : ∀ i, i < init.length → i ∈ order) :
    allDone (run f (taskSched order) (initState zero c0 w init)) = true := by
  obtain ⟨-, hlen, hdone⟩ := Quiet.run_tasks f order _ (Quiet.quiet_init zero c0 w init hentry)
  apply allDone_of_forall
  intro j hj
  rw [hlen] at hj
  exact hdone j (Or.inl (hall j hj)) hj

/-! ## The machine: no deadlock, and every run can be completed -/

theorem sum_map_set {α : Type} (g : α → Nat) (l : List α) (t : Nat) (a b : α)
    (h : l[t]? = some a) : ((l.set t b).map g).sum + g a = (l.map g).sum + g b := by
  induction l generalizing t with
  | nil => simp at h
  | cons x rest ih =>
    cases t with
    | zero =>
      simp only [List.getElem?_cons_zero, Option.some.injEq] at h
      subst h
      simp only [List.set_cons_zero, List.map_cons, List.sum_cons]
      omega
    | succ t =>
      simp only [List.getElem?_cons_succ] at h
      have := ih t h
      simp only [List.set_cons_succ, List.map_cons, List.sum_cons]
      omega

theorem Move.totalFuel_lt {T σ : Type} {f : Fetcher T σ} {s s' : State T σ} {t : Nat}
    {pc : Pc T} (hpc : s.pcs[t]? = some pc) (hm : Move f t s pc s') :
    totalFuel s' < totalFuel s := by
  obtain ⟨pc', hpcs, -, hlt, -⟩ := hm.next
  have := sum_map_set Pc.fuel s.pcs t pc pc' hpc
  simp only [totalFuel, hpcs]
  omega

theorem enabled_of {T σ : Type} (f : Fetcher T σ) {s : State T σ} {t : Nat} {pc : Pc T}
    (hpc : s.pcs[t]? = some pc) (hnd : pc ≠ Pc.done)
    (hR : pc.inR = true → s.mu.readers ≠ 0) (hW : pc.inW = true → s.mu.writer = true)
    (hfree : pc.inR = false → pc.inW = false → s.mu.writer = false ∧ s.mu.readers = 0) :
    ∃ s', step f t s = some s' := by
  cases pc
  case done => exact absurd rfl hnd
  all_goals
    simp only [Pc.inR, Pc.inW, Bool.false_eq_true, forall_const, false_implies,
      true_implies, not_false_eq_true] at hR hW hfree
    simp only [step, hpc, RWMutex.RLock, RWMutex.RUnlock, RWMutex.Lock, RWMutex.Unlock]
    first
      | exact ⟨_, rfl⟩
      | (split <;> exact ⟨_, rfl⟩)
      | simp [hfree.1, hfree.2]
      | simp [hR]
      | simp [hW]

theorem exists_index_of_countP_pos {α : Type} (p : α → Bool) (l : List α)
    (h : 0 < l.countP p) : ∃ (t : Nat) (a : α), l[t]? = some a ∧ p a = true := by
  obtain ⟨a, hmem, hp⟩ := List.countP_pos_iff.mp h
  obtain ⟨t, ht⟩ := List.mem_iff_getElem?.mp hmem
  exact ⟨t, a, ht, hp⟩

theorem LockInv.not_inR {T σ : Type} {s : State T σ} (h : LockInv s) (hr : s.mu.readers = 0)
    {t : Nat} {pc : Pc T} (hpc : s.pcs[t]? = some pc) : pc.inR = false := by
  have := h.readers
  rw [hr, List.countP_eq_zero] at this
  simpa using this pc (List.getElem?_mem hpc)

theorem LockInv.not_inW {T σ : Type} {s : State T σ} (h : LockInv s)
    (hw : s.mu.writer = false) {t : Nat} {pc : Pc T} (hpc : s.pcs[t]? = some pc) :
    pc.inW = false := by
  have := h.writer
  rw [hw] at this
  simp only [Bool.false_eq_true, if_false] at this
  rw [List.countP_eq_zero] at this
  simpa using this pc (List.getElem?_mem hpc)

theorem deadlock_free {T σ : Type} (f : Fetcher T σ) {s : State T σ} (h : LockInv s)
    (hnd : allDone s = false) : ∃ t s', step f t s = some s' := by
  by_cases hw : s.mu.writer = true
  · have hc := h.writer
    rw [hw] at hc
    simp only [if_true] at hc
    obtain ⟨t, pc, hpc, hp⟩ := exists_index_of_countP_pos Pc.inW s.pcs (by omega)
    refine ⟨t, enabled_of f hpc ?_ ?_ (fun _ => hw) ?_⟩
    · intro e
      subst e
      simp [Pc.inW] at hp
    · intro hR
      cases pc <;> simp [Pc.inW, Pc.inR] at hp hR
    · intro _ hW
      rw [hW] at hp
      cases hp
  · have hw' : s.mu.writer = false := by simpa using hw
    by_cases hr : s.mu.readers = 0
    · have hex : ∃ (t : Nat) (pc : Pc T), s.pcs[t]? = some pc ∧ pc.isDone = false := by
        simp only [allDone, List.all_eq_false] at hnd
        obtain ⟨pc, hmem, hp⟩ := hnd
        obtain ⟨t, ht⟩ := List.mem_iff_getElem?.mp hmem
        exact ⟨t, pc, ht, by simpa using hp⟩
      obtain ⟨t, pc, hpc, hp⟩ := hex
      have hnR := h.not_inR hr hpc
      have hnW := h.not_inW hw' hpc
      refine ⟨t, enabled_of f hpc ?_ ?_ ?_ (fun _ _ => ⟨hw', hr⟩)⟩
      · intro e
        subst e
        simp [Pc.isDone] at hp
      · intro hR
        rw [hR] at hnR
        cases hnR
      · intro hW
        rw [hW] at hnW
        cases hnW
    · have hc := h.readers
      obtain ⟨t, pc, hpc, hp⟩ := exists_index_of_countP_pos Pc.inR s.pcs (by omega)
      refine ⟨t, enabled_of f hpc ?_ (fun _ => hr) ?_ ?_⟩
      · intro e
        subst e
        simp [Pc.inR] at hp
      · intro hW
        cases pc <;> simp [Pc.inW, Pc.inR] at hp hW
      · intro hR
        rw [hR] at hp
        cases hp

theorem exists_completion {T σ : Type} (f : Fetcher T σ) (n : Nat) :
    ∀ s : State T σ, totalFuel s ≤ n → LockInv s → ∃ sched, allDone (run f sched s) = true := by
  induction n with
  | zero =>
    intro s hn hl
    by_cases hd : allDone s = true
    · exact ⟨[], hd⟩
    · obtain ⟨t, s', hs⟩ := deadlock_free f hl (by simpa using hd)
      obtain ⟨pc, hpc, hm⟩ := step_move hs
      have := hm.totalFuel_lt hpc
      omega
  | succ n ih =>
    intro s hn hl
    by_cases hd : allDone s = true
    · exact ⟨[], hd⟩
    · obtain ⟨t, s', hs⟩ := deadlock_free f hl (by simpa using hd)
      obtain ⟨pc, hpc, hm⟩ := step_move hs
      have hlt := hm.totalFuel_lt hpc
      obtain ⟨sched, hsched⟩ := ih s' (by omega) (hl.lock_move hpc hm)
      refine ⟨t :: sched, ?_⟩
      simp only [run, hs, Option.getD_some]
      exact hsched

/-! ## The fan-out -/

theorem atoi_entries {T : Type} (ids : List String) :
    ∀ p : Pc T, p ∈ ids.map Pc.atoi → p.isEntry = true := by
  intro p hp
  obtain ⟨s, -, rfl⟩ := List.mem_map.mp hp
  rfl

theorem fanOut_some {σ : Type} {f : Fetcher User σ} {c : Cache User} {w : σ}
    {ids : List String} {sched : List Nat} {r : FanOutResult σ}
    (h : fanOut f c w ids sched = some r) :
    allDone (run f sched (initState User.zero c.data w (ids.map Pc.atoi))) = true ∧
    r.users = (run f sched (initState User.zero c.data w (ids.map Pc.atoi))).users ∧
    r.cache.data = (run f sched (initState User.zero c.data w (ids.map Pc.atoi))).data ∧
    r.env = (run f sched (initState User.zero c.data w (ids.map Pc.atoi))).env := by
  unfold fanOut at h
  split at h
  · rename_i hd
    cases h
    exact ⟨hd, rfl, rfl, rfl⟩
  · cases h

theorem fanOut_isSome {σ : Type} {f : Fetcher User σ} {c : Cache User} {w : σ}
    {ids : List String} {sched : List Nat}
    (h : allDone (run f sched (initState User.zero c.data w (ids.map Pc.atoi))) = true) :
    (fanOut f c w ids sched).isSome = true := by
  unfold fanOut
  rw [if_pos h]
  rfl

theorem fanOut_inv {σ : Type} (f : Fetcher User σ) (val : Int → User)
    (hdet : ∀ id w, (f id w).1 = val id) (c : Cache User) (w : σ) (ids : List String)
    (sched : List Nat) :
    ValInv User.zero val c.data (ids.map Pc.atoi)
        (run f sched (initState User.zero c.data w (ids.map Pc.atoi))) ∧
      LockInv (run f sched (initState User.zero c.data w (ids.map Pc.atoi))) :=
  run_inv hdet sched _ (ValInv.val_init User.zero val c.data w _ (atoi_entries ids))
    (LockInv.lock_init User.zero c.data w _ (atoi_entries ids))

theorem fanOut_users {σ : Type} (f : Fetcher User σ) (val : Int → User)
    (hdet : ∀ id w, (f id w).1 = val id) (c : Cache User) (w : σ) (ids : List String)
    (sched : List Nat) (r : FanOutResult σ) (h : fanOut f c w ids sched = some r) :
    r.users = ids.map (slotFor val c) := by
  obtain ⟨hd, hu, -, -⟩ := fanOut_some h
  rw [hu, (fanOut_inv f val hdet c w ids sched).1.users_of_allDone hd, List.map_map]
  rfl

theorem fanOut_task_order {σ : Type} (f : Fetcher User σ) (c : Cache User) (w : σ)
    (ids : List String) (order : List Nat) (hall : ∀ i, i < ids.length → i ∈ order) :
    (fanOut f c w ids (taskSched order)).isSome = true := by
  apply fanOut_isSome
  apply taskSched_allDone f User.zero c.data w _ (atoi_entries ids) order
  simpa using hall

theorem fanOut_extends {σ : Type} (f : Fetcher User σ) (c : Cache User) (w : σ)
    (ids : List String) (pre : List Nat) :
    ∃ post, (fanOut f c w ids (pre ++ post)).isSome = true := by
  have hl : LockInv (run f pre (initState User.zero c.data w (ids.map Pc.atoi))) := by
    have hinit := LockInv.lock_init User.zero c.data w _ (atoi_entries (T := User) ids)
    generalize initState User.zero c.data w (ids.map Pc.atoi) = s at hinit
    induction pre generalizing s with
    | nil => exact hinit
    | cons t rest ih =>
      simp only [run]
      cases hs : step f t s with
      | none => exact ih s hinit
      | some s' =>
        obtain ⟨pc, hpc, hm⟩ := step_move hs
        exact ih s' (hinit.lock_move hpc hm)
  obtain ⟨post, hpost⟩ := exists_completion f _ _ (Nat.le_refl _) hl
  refine ⟨post, fanOut_isSome ?_⟩
  rw [run_append]
  exact hpost

/-- C3: whatever the order in which the goroutines of the fan-out take their steps,
a fan-out that has returned holds in `users` one slot per id string, and the slot of
an id string that parses to `id` holds the value cached for `id` at the start, else
the fetcher's value for `id`. Every order of whole goroutines returns, every started
run can be continued to a return, and any two runs return the same `users`. -/
theorem fanout_order_independent {σ : Type} (f : Fetcher User σ) (val : Int → User)
    (c : Cache User) (w : σ) (ids : List String) (hdet : ∀ id w, (f id w).1 = val id) :
    (∀ order : List Nat, (∀ i, i < ids.length → i ∈ order) →
      (fanOut f c w ids (taskSched order)).isSome = true) ∧
    (∀ pre : List Nat, ∃ post, (fanOut f c w ids (pre ++ post)).isSome = true) ∧
    (∀ sched r, fanOut f c w ids sched = some r →
      r.users.length = ids.length ∧
      ∀ (i : Nat) (idStr : String) (id : Int), ids[i]? = some idStr → Atoi idStr = some id →
        r.users[i]? = some ((c.data id).getD (val id))) ∧
    (∀ sched sched' r r', fanOut f c w ids sched = some r →
      fanOut f c w ids sched' = some r' → r.users = r'.users) := by
  refine ⟨fanOut_task_order f c w ids, fanOut_extends f c w ids, ?_, ?_⟩
  · intro sched r h
    have hu := fanOut_users f val hdet c w ids sched r h
    refine ⟨by rw [hu, List.length_map], fun i idStr id hi hA => ?_⟩
    rw [hu, List.getElem?_map, hi, Option.map_some']
    simp [slotFor, hA]
  · intro sched sched' r r' h h'
    rw [fanOut_users f val hdet c w ids sched r h, fanOut_users f val hdet c w ids sched' r' h']

theorem fanOut_cache {σ : Type} (f : Fetcher User σ) (val : Int → User)
    (hdet : ∀ id w, (f id w).1 = val id) (c : Cache User) (w : σ) (ids : List String)
    (sched : List Nat) (r : FanOutResult σ) (h : fanOut f c w ids sched = some r) (k : Int) :
    (∀ v, c.data k = some v → r.cache.data k = some v) ∧
    (c.data k = none → (∃ idStr, idStr ∈ ids ∧ Atoi idStr = some k) →
      r.cache.data k = some (val k)) ∧
    ((∀ idStr, idStr ∈ ids → Atoi idStr ≠ some k) → r.cache.data k = c.data k) := by
  obtain ⟨hd, -, hdata, -⟩ := fanOut_some h
  obtain ⟨h1, h2, h3⟩ := (fanOut_inv f val hdet c w ids sched).1.data_of_allDone hd k
  rw [hdata]
  refine ⟨h1, fun hc ⟨idStr, hmem, hA⟩ => h2 hc ⟨Pc.atoi idStr, List.mem_map.mpr ⟨idStr, hmem, rfl⟩, hA⟩,
    fun hno => ?_⟩
  cases hc : c.data k with
  | some v => exact h1 v hc
  | none =>
    apply h3 hc
    rintro ⟨p0, hmem, hw⟩
    obtain ⟨idStr, hmem', rfl⟩ := List.mem_map.mp hmem
    exact hno idStr hmem' hw

theorem step_atoi_none {T σ : Type} (f : Fetcher T σ) (s : State T σ) (i : Nat) (bad : String)
    (hpc : s.pcs[i]? = some (Pc.atoi bad)) (hbad : Atoi bad = none) :
    step f i s = some { s with pcs := s.pcs.set i Pc.done } := by
  simp [step, hpc, hbad]

theorem fanOut_returns_tasks {σ : Type} (f : Fetcher User σ) (val : Int → User)
    (hdet : ∀ id w, (f id w).1 = val id) (c : Cache User) (w : σ) (ids : List String)
    (order : List Nat) (hall : ∀ j, j < ids.length → j ∈ order) :
    ∃ r, fanOut f c w ids (taskSched order) = some r ∧ r.users = ids.map (slotFor val c) := by
  obtain ⟨r, hr⟩ := Option.isSome_iff_exists.mp (fanOut_task_order f c w ids order hall)
  exact ⟨r, hr, fanOut_users f val hdet c w ids _ r hr⟩

theorem fanOut_returns_after {σ : Type} (f : Fetcher User σ) (val : Int → User)
    (hdet : ∀ id w, (f id w).1 = val id) (c : Cache User) (w : σ) (ids : List String)
    (pre : List Nat) :
    ∃ post r, fanOut f c w ids (pre ++ post) = some r ∧ r.users = ids.map (slotFor val c) := by
  obtain ⟨post, hpost⟩ := fanOut_extends f c w ids pre
  obtain ⟨r, hr⟩ := Option.isSome_iff_exists.mp hpost
  exact ⟨post, r, hr, fanOut_users f val hdet c w ids _ r hr⟩

/-- C4: the fan-out returns (for every order of whole goroutines, and from every
started run), and when it has returned an id string that does not parse has the zero
`User` in its slot; the one step its goroutine takes changes nothing but that
goroutine's program counter (no fetch, cache and mutex untouched) and the goroutine
takes no step after it; the cache changes only at keys named by an id string that
parses; the fan-out also returns with any other string in place of the invalid one,
and every other slot is then what it is with the invalid one; and `["1", "x", "2"]`
on the database of `main` with an empty cache returns `[user 1, zero User, user 2]`. -/
theorem invalid_id_skipped {σ : Type} (f : Fetcher User σ) (val : Int → User)
    (c : Cache User) (w : σ) (ids : List String) (i : Nat) (bad : String)
    (hdet : ∀ id w, (f id w).1 = val id) (hi : ids[i]? = some bad) (hbad : Atoi bad = none) :
    (∀ order : List Nat, (∀ j, j < ids.length → j ∈ order) →
      ∃ r, fanOut f c w ids (taskSched order) = some r ∧ r.users[i]? = some User.zero) ∧
    (∀ pre : List Nat, ∃ post r,
      fanOut f c w ids (pre ++ post) = some r ∧ r.users[i]? = some User.zero) ∧
    (∀ sched r, fanOut f c w ids sched = some r → r.users[i]? = some User.zero) ∧
    (∀ s : State User σ, s.pcs[i]? = some (Pc.atoi bad) →
      step f i s = some { s with pcs := s.pcs.set i Pc.done }) ∧
    (∀ s : State User σ, s.pcs[i]? = some Pc.done → step f i s = none) ∧
    (∀ sched r k, fanOut f c w ids sched = some r →
      (∀ idStr, idStr ∈ ids → Atoi idStr ≠ some k) → r.cache.data k = c.data k) ∧
    (∀ (other : String) (pre : List Nat), ∃ post r',
      fanOut f c w (ids.set i other) (pre ++ post) = some r' ∧
      ∀ sched r, fanOut f c w ids sched = some r →
        ∀ j, j ≠ i → r.users[j]? = r'.users[j]?) ∧
    (∀ other sched sched' r r', fanOut f c w ids sched = some r →
      fanOut f c w (ids.set i other) sched' = some r' →
      ∀ j, j ≠ i → r.users[j]? = r'.users[j]?) ∧
    (∀ order : List Nat, (∀ j, j < 3 → j ∈ order) →
      ∃ r, fanOut mainDB.GetUser (NewCache User) 0 ["1", "x", "2"] (taskSched order) = some r ∧
        r.users = [⟨1, "John Doe"⟩, User.zero, ⟨2, "Jane Doe"⟩]) ∧
    (∀ pre : List Nat, ∃ post r,
      fanOut mainDB.GetUser (NewCache User) 0 ["1", "x", "2"] (pre ++ post) = some r ∧
        r.users = [⟨1, "John Doe"⟩, User.zero, ⟨2, "Jane Doe"⟩]) ∧
    (∀ sched r, fanOut mainDB.GetUser (NewCache User) 0 ["1", "x", "2"] sched = some r →
      r.users = [⟨1, "John Doe"⟩, User.zero, ⟨2, "Jane Doe"⟩]) := by
  have hzero : ∀ r : FanOutResult σ, r.users = ids.map (slotFor val c) →
      r.users[i]? = some User.zero := by
    intro r hu
    rw [hu, List.getElem?_map, hi, Option.map_some']
    simp [slotFor, hbad]
  have hother : ∀ (other : String) (r r' : FanOutResult σ),
      r.users = ids.map (slotFor val c) →
      r'.users = (ids.set i other).map (slotFor val c) →
      ∀ j, j ≠ i → r.users[j]? = r'.users[j]? := by
    intro other r r' hu hu' j hj
    rw [hu, hu', List.getElem?_map, List.getElem?_map, List.getElem?_set_ne (Ne.symm hj)]
  have hmain : (["1", "x", "2"] : List String).map
      (slotFor (fun id => (mainDB.users id).getD User.zero) (NewCache User)) =
      [⟨1, "John Doe"⟩, User.zero, ⟨2, "Jane Doe"⟩] := by decide
  refine ⟨fun order hall => ?_, fun pre => ?_, fun sched r h => ?_,
    fun s hpc => step_atoi_none f s i bad hpc hbad, fun s hpc => step_done f hpc,
    fun sched r k h hno => (fanOut_cache f val hdet c w ids sched r h k).2.2 hno,
    fun other pre => ?_, fun other sched sched' r r' h h' => ?_,
    fun order hall => ?_, fun pre => ?_, fun sched r h => ?_⟩
  · obtain ⟨r, hr, hu⟩ := fanOut_returns_tasks f val hdet c w ids order hall
    exact ⟨r, hr, hzero r hu⟩
  · obtain ⟨post, r, hr, hu⟩ := fanOut_returns_after f val hdet c w ids pre
    exact ⟨post, r, hr, hzero r hu⟩
  · exact hzero r (fanOut_users f val hdet c w ids sched r h)
  · obtain ⟨post, r', hr', hu'⟩ := fanOut_returns_after f val hdet c w (ids.set i other) pre
    exact ⟨post, r', hr', fun sched r h =>
      hother other r r' (fanOut_users f val hdet c w ids sched r h) hu'⟩
  · exact hother other r r' (fanOut_users f val hdet c w ids sched r h)
      (fanOut_users f val hdet c w (ids.set i other) sched' r' h')
  · obtain ⟨r, hr, hu⟩ := fanOut_returns_tasks mainDB.GetUser
      (fun id => (mainDB.users id).getD User.zero) (fun _ _ => rfl) (NewCache User) 0
      ["1", "x", "2"] order hall
    exact ⟨r, hr, hu.trans hmain⟩
  · obtain ⟨post, r, hr, hu⟩ := fanOut_returns_after mainDB.GetUser
      (fun id => (mainDB.users id).getD User.zero) (fun _ _ => rfl) (NewCache User) 0
      ["1", "x", "2"] pre
    exact ⟨post, r, hr, hu.trans hmain⟩
  · exact (fanOut_users mainDB.GetUser (fun id => (mainDB.users id).getD User.zero)
      (fun _ _ => rfl) (NewCache User) 0 _ sched r h).trans hmain

/-! ## The handler -/

theorem length_lt_one_iff (s : String) : s.length < 1 ↔ s = "" := by
  constructor
  · intro h
    have h0 : s.data.length = 0 := by
      have : s.length = s.data.length := rfl
      omega
    have hd : s.data = [] := List.length_eq_zero.mp h0
    cases s
    simp only at hd
    subst hd
    rfl
  · rintro rfl
    decide

theorem handler_ok {db : MockDB} {c : Cache User} {slept : Nat} {first : String}
    {more : List String} {sched : List Nat} (hne : first ≠ "") :
    handler db c slept (some (first :: more)) sched =
      (fanOut db.GetUser c slept (first :: more) sched).map
        fun r => ⟨Response.ok r.users, r.cache, r.env⟩ := by
  have : ¬ first.length < 1 := fun h => hne ((length_lt_one_iff first).mp h)
  simp only [handler, this, if_false]
  cases fanOut db.GetUser c slept (first :: more) sched <;> rfl

/-- C8: the handler answers 400 "Missing user id", leaving cache and time slept as
they were, exactly when the query has no `id` parameter or its first `id` value is
empty; `["", "1"]` is rejected, and `["1", ""]` is served with the zero `User` in
slot 1. -/
theorem missing_id_rejected (db : MockDB) (c : Cache User) (slept : Nat)
    (query : Option (List String)) (sched : List Nat) :
    ((query = none ∨ ∃ more, query = some ("" :: more)) →
      handler db c slept query sched = some ⟨.badRequest "Missing user id", c, slept⟩) ∧
    (∀ r msg, handler db c slept query sched = some r → r.resp = .badRequest msg →
      (query = none ∨ ∃ more, query = some ("" :: more))) ∧
    handler db c slept (some ["", "1"]) sched =
      some ⟨.badRequest "Missing user id", c, slept⟩ ∧
    (∀ r, handler db c slept (some ["1", ""]) sched = some r →
      r.resp = .ok [(c.data 1).getD ((db.users 1).getD User.zero), User.zero]) ∧
    (∃ sched', (handler db c slept (some ["1", ""]) sched').isSome = true) := by
  refine ⟨?_, ?_, rfl, ?_, ?_⟩
  · rintro (rfl | ⟨more, rfl⟩) <;> rfl
  · intro r msg h hmsg
    cases query with
    | none => exact Or.inl rfl
    | some ids =>
      cases ids with
      | nil =>
        simp only [handler, Option.some.injEq] at h
        subst h
        cases hmsg
      | cons first more =>
        by_cases hf : first = ""
        · subst hf
          exact Or.inr ⟨more, rfl⟩
        · rw [handler_ok hf] at h
          cases hfo : fanOut db.GetUser c slept (first :: more) sched with
          | none =>
            rw [hfo] at h
            cases h
          | some r' =>
            rw [hfo] at h
            simp only [Option.map_some', Option.some.injEq] at h
            subst h
            cases hmsg
  · intro r h
    rw [handler_ok (by decide)] at h
    cases hfo : fanOut db.GetUser c slept ["1", ""] sched with
    | none =>
      rw [hfo] at h
      cases h
    | some r' =>
      rw [hfo] at h
      simp only [Option.map_some', Option.some.injEq] at h
      subst h
      rw [fanOut_users db.GetUser (fun id => (db.users id).getD User.zero) (fun _ _ => rfl)
        c slept _ sched r' hfo]
      have h1 : Atoi "1" = some 1 := by decide
      have h2 : Atoi "" = none := by decide
      simp [slotFor, h1, h2]
  · refine ⟨taskSched [0, 1], ?_⟩
    rw [handler_ok (by decide)]
    have := fanOut_task_order db.GetUser c slept ["1", ""] [0, 1] (by
      intro i hi
      simp only [List.length_cons, List.length_nil] at hi
      have : i = 0 ∨ i = 1 := by omega
      rcases this with rfl | rfl <;> simp)
    cases hfo : fanOut db.GetUser c slept ["1", ""] (taskSched [0, 1]) with
    | none =>
      rw [hfo] at this
      cases this
    | some r' => rfl

theorem Consistent.new (db : MockDB) : Consistent db (NewCache User) := by
  intro k v h
  cases h

theorem Consistent.get {db : MockDB} {c : Cache User} (hc : Consistent db c) (id : Int)
    (slept : Nat) : Consistent db (c.Get id db.GetUser slept).cache := by
  cases hid : c.data id with
  | some u =>
    rw [Cache.Get_hit c id _ slept u hid]
    exact hc
  | none =>
    rw [Cache.Get_miss c id _ slept hid]
    intro k v hk
    simp only at hk
    by_cases hkid : k = id
    · subst hkid
      rw [mapSet_same] at hk
      cases hk
      rfl
    · rw [mapSet_other _ _ _ _ hkid] at hk
      exact hc k v hk

theorem Consistent.fanOut {db : MockDB} {c : Cache User} (hc : Consistent db c) (slept : Nat)
    (ids : List String) (sched : List Nat) (r : FanOutResult Nat)
    (h : fanOut db.GetUser c slept ids sched = some r) : Consistent db r.cache := by
  obtain ⟨-, -, hdata, -⟩ := fanOut_some h
  intro k v hk
  rw [hdata] at hk
  have := (fanOut_inv db.GetUser (fun id => (db.users id).getD User.zero) (fun _ _ => rfl)
    c slept ids sched).1.dataVal k v hk
  rw [this]
  unfold expect
  cases hck : c.data k with
  | none => rfl
  | some u => exact hc k u hck

/-- C9: on a cache that agrees with the database, `Get(id, db.GetUser)` for an id
that is not a key of `db.users` returns the zero `User`, leaves it cached under
`id` (the cache still agreeing with the database), later `Get`s of `id` return the
zero `User` without running their fetcher, and the response slot for such an id
string is the zero `User`, as is the slot of an id string that does not parse; both
fan-outs return from every started run. -/
theorem unknown_id_zero (db : MockDB) (c : Cache User) (id : Int) (slept : Nat)
    (hc : Consistent db c) (hid : db.users id = none) :
    (c.Get id db.GetUser slept).val = User.zero ∧
    (c.Get id db.GetUser slept).cache.data id = some User.zero ∧
    Consistent db (c.Get id db.GetUser slept).cache ∧
    (∀ {τ : Type} (g : Fetcher User τ) (u : τ),
      (c.Get id db.GetUser slept).cache.Get id g u =
        ⟨User.zero, (c.Get id db.GetUser slept).cache, u⟩) ∧
    (∀ idStr bad sched sched' r r', Atoi idStr = some id → Atoi bad = none →
      fanOut db.GetUser c slept [idStr] sched = some r →
      fanOut db.GetUser c slept [bad] sched' = some r' →
      r.users = [User.zero] ∧ r'.users = [User.zero] ∧
        r.cache.data id = some User.zero) ∧
    (∀ (idStr bad : String) (pre : List Nat), ∃ post post',
      (fanOut db.GetUser c slept [idStr] (pre ++ post)).isSome = true ∧
      (fanOut db.GetUser c slept [bad] (pre ++ post')).isSome = true) := by
  have hval : (c.Get id db.GetUser slept).val = User.zero ∧
      (c.Get id db.GetUser slept).cache.data id = some User.zero := by
    cases hd : c.data id with
    | some u =>
      rw [Cache.Get_hit c id _ slept u hd]
      have := hc id u hd
      rw [hid] at this
      simp only [Option.getD_none] at this
      subst this
      exact ⟨rfl, hd⟩
    | none =>
      rw [Cache.Get_miss c id _ slept hd]
      simp [MockDB.GetUser, hid, mapSet_same]
  refine ⟨hval.1, hval.2, hc.get id slept, fun g u => Cache.Get_hit _ id g u _ hval.2, ?_,
    fun idStr bad pre => ?_⟩
  rotate_left
  · obtain ⟨post, hpost⟩ := fanOut_extends db.GetUser c slept [idStr] pre
    obtain ⟨post', hpost'⟩ := fanOut_extends db.GetUser c slept [bad] pre
    exact ⟨post, post', hpost, hpost'⟩
  intro idStr bad sched sched' r r' hA hbad h h'
  have hslot : (c.data id).getD ((db.users id).getD User.zero) = User.zero := by
    cases hd : c.data id with
    | none => simp [hid]
    | some u =>
      have := hc id u hd
      rw [hid] at this
      simpa using this
  refine ⟨?_, ?_, ?_⟩
  · rw [fanOut_users db.GetUser (fun id => (db.users id).getD User.zero) (fun _ _ => rfl)
      c slept _ sched r h]
    simp [slotFor, hA, hslot]
  · rw [fanOut_users db.GetUser (fun id => (db.users id).getD User.zero) (fun _ _ => rfl)
      c slept _ sched' r' h']
    simp [slotFor, hbad]
  · obtain ⟨h1, h2, -⟩ := fanOut_cache db.GetUser (fun id => (db.users id).getD User.zero)
      (fun _ _ => rfl) c slept _ sched r h id
    cases hd : c.data id with
    | some u =>
      have := hc id u hd
      rw [hid] at this
      simp only [Option.getD_none] at this
      subst this
      exact h1 _ hd
    | none =>
      rw [h2 hd ⟨idStr, by simp, hA⟩, hid]
      rfl

/-! ## Concurrent calls of `Get` for one key -/

theorem forall_set {α : Type} {P : α → Prop} {l : List α} {t : Nat} {a : α}
    (h : ∀ (j : Nat) (q : α), l[j]? = some q → P q) (ha : P a) :
    ∀ (j : Nat) (q : α), (l.set t a)[j]? = some q → P q := by
  intro j q hq
  rw [List.getElem?_set] at hq
  split at hq
  · split at hq
    · cases hq
      exact ha
    · cases hq
  · exact h j q hq

theorem LockInv.writer_of_inW {T σ : Type} {s : State T σ} (h : LockInv s) {t : Nat}
    {pc : Pc T} (hpc : s.pcs[t]? = some pc) (hW : pc.inW = true) : s.mu.writer = true := by
  by_contra hw
  have := h.not_inW (by simpa using hw) hpc
  rw [hW] at this
  cases this

theorem Pc.waiting.beforeFetch {T : Type} {k : Int} {q : Pc T} (h : q.waiting k) :
    q.beforeFetch k := by
  cases q <;> simp only [Pc.waiting] at h <;> exact h

theorem Pc.waiting.afterStore {T : Type} {k : Int} {v1 : T} {q : Pc T} (h : q.waiting k) :
    q.afterStore k v1 := by
  cases q <;> simp only [Pc.waiting] at h <;> exact h

theorem KeyInv.key_move {T σ : Type} {k : Int} {f : Fetcher T σ} {w0 : σ} {s s' : State T σ}
    {t : Nat} {pc : Pc T} (h : KeyInv k (f k w0).1 w0 (f k w0).2 s) (hl : LockInv s)
    (hpc : s.pcs[t]? = some pc) (hm : Move f t s pc s') :
    KeyInv k (f k w0).1 w0 (f k w0).2 s' := by
  obtain ⟨ht, _⟩ := List.getElem?_eq_some_iff.mp hpc
  obtain ⟨hlen, hslots, hphase⟩ := h
  have hslots' : ∀ (pc' : Pc T), pc' ≠ Pc.done →
      ∀ (j : Nat), (s.pcs.set t pc')[j]? = some Pc.done → s.users[j]? = some (f k w0).1 := by
    intro pc' hne j hj
    by_cases hjt : t = j
    · subst hjt
      rw [List.getElem?_set_self ht] at hj
      cases hj
      exact absurd rfl hne
    · rw [List.getElem?_set_ne hjt] at hj
      exact hslots j hj
  rcases hphase with ⟨hd, he, hall⟩ | ⟨hd, he, t0, ht0, hall⟩ | ⟨hd, he, hall⟩
  · -- nobody has fetched yet
    have hp := hall t pc hpc
    cases hm with
    | atoiErr idStr hA => simp only [Pc.beforeFetch] at hp
    | atoiOk idStr id hA => simp only [Pc.beforeFetch] at hp
    | runlockHit v m hmu => simp only [Pc.beforeFetch] at hp
    | store id v => simp only [Pc.beforeFetch] at hp
    | unlock v m hmu => simp only [Pc.beforeFetch] at hp
    | assign v => simp only [Pc.beforeFetch] at hp
    | check1Hit id v hv =>
      simp only [Pc.beforeFetch] at hp
      rw [hp, hd] at hv
      cases hv
    | check2Hit id v hv =>
      simp only [Pc.beforeFetch] at hp
      rw [hp, hd] at hv
      cases hv
    | rlock id m hmu =>
      exact ⟨by simpa using hlen, hslots' _ (by simp),
        Or.inl ⟨hd, he, forall_set hall (by simpa [Pc.beforeFetch] using hp)⟩⟩
    | check1Miss id hv =>
      exact ⟨by simpa using hlen, hslots' _ (by simp),
        Or.inl ⟨hd, he, forall_set hall (by simpa [Pc.beforeFetch] using hp)⟩⟩
    | runlockMiss id m hmu =>
      exact ⟨by simpa using hlen, hslots' _ (by simp),
        Or.inl ⟨hd, he, forall_set hall (by simpa [Pc.beforeFetch] using hp)⟩⟩
    | lock id m hmu =>
      exact ⟨by simpa using hlen, hslots' _ (by simp),
        Or.inl ⟨hd, he, forall_set hall (by simpa [Pc.beforeFetch] using hp)⟩⟩
    | check2Miss id hv =>
      exact ⟨by simpa using hlen, hslots' _ (by simp),
        Or.inl ⟨hd, he, forall_set hall (by simpa [Pc.beforeFetch] using hp)⟩⟩
    | fetch id =>
      simp only [Pc.beforeFetch] at hp
      subst hp
      refine ⟨by simpa using hlen, hslots' _ (by simp), Or.inr (Or.inl ⟨hd, by rw [he], t, ?_, ?_⟩)⟩
      · simp only [he]
        exact List.getElem?_set_self ht
      · intro j q hj hq
        simp only at hq
        rw [List.getElem?_set_ne (Ne.symm hj)] at hq
        have hq1 := hall j q hq
        have hq2 := hl.exclusive hpc rfl j q hj hq
        cases q <;> simp only [Pc.beforeFetch, Pc.waiting] at hq1 ⊢ <;>
          first | exact hq1 | (simp [Pc.inW] at hq2)
  · -- one call has fetched and is about to store
    have hwr := hl.writer_of_inW ht0 rfl
    by_cases htt : t = t0
    · subst htt
      rw [hpc] at ht0
      cases ht0
      cases hm with
      | store id v =>
        refine ⟨by simpa using hlen, hslots' _ (by simp),
          Or.inr (Or.inr ⟨mapSet_same _ _ _, he, ?_⟩)⟩
        intro j q hq
        simp only at hq
        by_cases hjt : t = j
        · subst hjt
          rw [List.getElem?_set_self ht] at hq
          cases hq
          simp [Pc.afterStore]
        · rw [List.getElem?_set_ne hjt] at hq
          exact (hall j q (Ne.symm hjt) hq).afterStore
    · have hp := hall t pc htt hpc
      have hkeep : ∀ (pc' : Pc T) (m : RWMutex), pc'.waiting k →
          KeyInv k (f k w0).1 w0 (f k w0).2
            { data := s.data, mu := m, env := s.env, pcs := s.pcs.set t pc', users := s.users } := by
        intro pc' m hw'
        refine ⟨by simpa using hlen, hslots' _ ?_, Or.inr (Or.inl ⟨hd, he, t0, ?_, ?_⟩)⟩
        · intro e
          subst e
          simp [Pc.waiting] at hw'
        · simp only
          rw [List.getElem?_set_ne htt]
          exact ht0
        · intro j q hj hq
          simp only at hq
          by_cases hjt : t = j
          · subst hjt
            rw [List.getElem?_set_self ht] at hq
            cases hq
            exact hw'
          · rw [List.getElem?_set_ne hjt] at hq
            exact hall j q hj hq
      cases hm with
      | atoiErr idStr hA => simp only [Pc.waiting] at hp
      | atoiOk idStr id hA => simp only [Pc.waiting] at hp
      | runlockHit v m hmu => simp only [Pc.waiting] at hp
      | store id v => simp only [Pc.waiting] at hp
      | unlock v m hmu => simp only [Pc.waiting] at hp
      | assign v => simp only [Pc.waiting] at hp
      | check2Hit id v hv => simp only [Pc.waiting] at hp
      | check2Miss id hv => simp only [Pc.waiting] at hp
      | fetch id => simp only [Pc.waiting] at hp
      | check1Hit id v hv =>
        simp only [Pc.waiting] at hp
        rw [hp, hd] at hv
        cases hv
      | rlock id m hmu =>
        have := (RWMutex.RLock_some hmu).1
        rw [hwr] at this
        cases this
      | lock id m hmu =>
        have := (RWMutex.Lock_some hmu).1
        rw [hwr] at this
        cases this
      | check1Miss id hv => exact hkeep _ _ (by simpa [Pc.waiting] using hp)
      | runlockMiss id m hmu => exact hkeep _ _ (by simpa [Pc.waiting] using hp)
  · -- the value is stored
    have hp := hall t pc hpc
    have hkeep : ∀ (pc' : Pc T) (m : RWMutex), pc' ≠ Pc.done → pc'.afterStore k (f k w0).1 →
        KeyInv k (f k w0).1 w0 (f k w0).2
          { data := s.data, mu := m, env := s.env, pcs := s.pcs.set t pc', users := s.users } :=
      fun pc' m hne hw' =>
        ⟨by simpa using hlen, hslots' _ hne, Or.inr (Or.inr ⟨hd, he, forall_set hall hw'⟩)⟩
    cases hm with
    | atoiErr idStr hA => simp only [Pc.afterStore] at hp
    | atoiOk idStr id hA => simp only [Pc.afterStore] at hp
    | store id v => simp only [Pc.afterStore] at hp
    | fetch id => simp only [Pc.afterStore] at hp
    | check1Miss id hv =>
      simp only [Pc.afterStore] at hp
      rw [hp, hd] at hv
      cases hv
    | check2Miss id hv =>
      simp only [Pc.afterStore] at hp
      rw [hp, hd] at hv
      cases hv
    | check1Hit id v hv =>
      simp only [Pc.afterStore] at hp
      rw [hp, hd] at hv
      cases hv
      exact hkeep _ _ (by simp) (by simp [Pc.afterStore])
    | check2Hit id v hv =>
      simp only [Pc.afterStore] at hp
      rw [hp, hd] at hv
      cases hv
      exact hkeep _ _ (by simp) (by simp [Pc.afterStore])
    | rlock id m hmu => exact hkeep _ _ (by simp) (by simpa [Pc.afterStore] using hp)
    | runlockMiss id m hmu => exact hkeep _ _ (by simp) (by simpa [Pc.afterStore] using hp)
    | lock id m hmu => exact hkeep _ _ (by simp) (by simpa [Pc.afterStore] using hp)
    | runlockHit v m hmu => exact hkeep _ _ (by simp) (by simpa [Pc.afterStore] using hp)
    | unlock v m hmu => exact hkeep _ _ (by simp) (by simpa [Pc.afterStore] using hp)
    | assign v =>
      simp only [Pc.afterStore] at hp
      subst hp
      refine ⟨by simpa using hlen, ?_, Or.inr (Or.inr ⟨hd, he, forall_set hall (by simp [Pc.afterStore])⟩)⟩
      intro j hj
      simp only at hj ⊢
      by_cases hjt : t = j
      · subst hjt
        rw [List.getElem?_set_self (by rw [hlen]; exact ht)]
      · rw [List.getElem?_set_ne hjt] at hj ⊢
        exact hslots j hj

theorem KeyInv.key_init {T σ : Type} (zero : T) (data : Int → Option T) (w : σ) (k : Int)
    (v1 : T) (w1 : σ) (habsent : data k = none) :
    KeyInv k v1 w w1 (twoGets zero data w k) := by
  refine ⟨rfl, fun t ht => ?_, Or.inl ⟨habsent, rfl, fun j q hq => ?_⟩⟩
  · have := List.getElem?_mem ht
    simp [twoGets, initState] at this
  · have := List.getElem?_mem hq
    simp only [twoGets, initState, List.mem_cons, List.mem_singleton, or_self,
      List.not_mem_nil, or_false] at this
    subst this
    simp [Pc.beforeFetch]

theorem twoGets_lockInv {T σ : Type} (zero : T) (data : Int → Option T) (w : σ) (k : Int) :
    LockInv (twoGets zero data w k : State T σ) :=
  LockInv.lock_init zero data w _ (by
    intro p hp
    simp only [List.mem_cons, List.mem_singleton, or_self, List.not_mem_nil, or_false] at hp
    subst hp
    rfl)

theorem run_keyInv {T σ : Type} {k : Int} {f : Fetcher T σ} {w0 : σ} (sched : List Nat)
    (s : State T σ) (hk : KeyInv k (f k w0).1 w0 (f k w0).2 s) (hl : LockInv s) :
    KeyInv k (f k w0).1 w0 (f k w0).2 (run f sched s) ∧ LockInv (run f sched s) := by
  induction sched generalizing s with
  | nil => exact ⟨hk, hl⟩
  | cons t rest ih =>
    simp only [run]
    cases hs : step f t s with
    | none => exact ih s hk hl
    | some s' =>
      obtain ⟨pc, hpc, hm⟩ := step_move hs
      exact ih s' (hk.key_move hl hpc hm) (hl.lock_move hpc hm)

theorem KeyInv.env {T σ : Type} {k : Int} {v1 : T} {w0 w1 : σ} {s : State T σ}
    (h : KeyInv k v1 w0 w1 s) : s.env = w0 ∨ s.env = w1 := by
  rcases h.phase with ⟨-, he, -⟩ | ⟨-, he, -⟩ | ⟨-, he, -⟩
  · exact Or.inl he
  · exact Or.inr he
  · exact Or.inr he

theorem KeyInv.of_allDone {T σ : Type} {k : Int} {v1 : T} {w0 w1 : σ} {s : State T σ}
    (h : KeyInv k v1 w0 w1 s) (hdone : allDone s = true) (hne : s.pcs ≠ []) :
    s.users = s.pcs.map (fun _ => v1) ∧ s.env = w1 ∧ s.data k = some v1 := by
  have hu : s.users = s.pcs.map (fun _ => v1) := by
    apply List.ext_getElem?
    intro t
    by_cases ht : t < s.pcs.length
    · have hpc : s.pcs[t]? = some s.pcs[t] := List.getElem?_eq_getElem ht
      have hd := allDone_getElem? hdone hpc
      rw [hd] at hpc
      rw [h.slots t hpc, List.getElem?_map, hpc]
      rfl
    · rw [List.getElem?_eq_none (by rw [h.lenU]; omega),
        List.getElem?_eq_none (by simp; omega)]
  obtain ⟨p, rest, hp⟩ := List.exists_cons_of_ne_nil hne
  have hp0 : s.pcs[0]? = some p := by rw [hp]; simp
  have hpd := allDone_getElem? hdone hp0
  subst hpd
  rcases h.phase with ⟨-, -, hall⟩ | ⟨-, -, t0, ht0, -⟩ | ⟨hd, he, -⟩
  · have := hall 0 _ hp0
    simp [Pc.beforeFetch] at this
  · have := allDone_getElem? hdone ht0
    cases this
  · exact ⟨hu, he, hd⟩

theorem twoGets_miss_first {T σ : Type} (zero : T) (data : Int → Option T) (w : σ) (k : Int)
    (f : Fetcher T σ) (habsent : data k = none) :
    (run f [0, 0, 0, 1, 1, 1] (twoGets zero data w k)).pcs = [Pc.lock k, Pc.lock k] ∧
    (run f [0, 0, 0, 1, 1, 1] (twoGets zero data w k)).data k = none ∧
    (run f [0, 0, 0, 1, 1, 1] (twoGets zero data w k)).env = w := by
  simp [run, step, twoGets, initState, RWMutex.free, RWMutex.RLock, RWMutex.RUnlock, habsent]

theorem twoGets_run_inv {T σ : Type} (zero : T) (data : Int → Option T) (w : σ) (k : Int)
    (f : Fetcher T σ) (habsent : data k = none) (sched : List Nat) :
    KeyInv k (f k w).1 w (f k w).2 (run f sched (twoGets zero data w k)) ∧
      LockInv (run f sched (twoGets zero data w k)) :=
  run_keyInv sched _ (KeyInv.key_init zero data w k _ _ habsent) (twoGets_lockInv zero data w k)

theorem run_pcs_length {T σ : Type} (f : Fetcher T σ) (sched : List Nat) (s : State T σ) :
    (run f sched s).pcs.length = s.pcs.length := by
  induction sched generalizing s with
  | nil => rfl
  | cons t rest ih =>
    simp only [run]
    cases hs : step f t s with
    | none => exact ih s
    | some s' =>
      obtain ⟨pc, hpc, hm⟩ := step_move hs
      obtain ⟨pc', hpcs, -, -, -⟩ := hm.next
      rw [Option.getD_some, ih s', hpcs, List.length_set]

/-- C7, as the code has it: two concurrent calls `Get(k, f)` on a cache without `k`
can both pass the first miss check (line 69) before either fetches, but the second
check under the write lock lets only one of them run `f`. In every interleaving the
environment is the initial one or the one left by a single run of `f`, at most one
call is between `Lock` and `Unlock`, every started run can be continued until both
calls have returned, and then both have returned `f(k)`, `f` has run once and its
value is stored under `k`. -/
theorem concurrent_miss_single_fetch {T σ : Type} (zero : T) (c : Cache T) (w : σ) (k : Int)
    (f : Fetcher T σ) (habsent : c.data k = none) :
    ((run f [0, 0, 0, 1, 1, 1] (twoGets zero c.data w k)).pcs = [Pc.lock k, Pc.lock k] ∧
      (run f [0, 0, 0, 1, 1, 1] (twoGets zero c.data w k)).data k = none ∧
      (run f [0, 0, 0, 1, 1, 1] (twoGets zero c.data w k)).env = w) ∧
    (∀ sched : List Nat,
      ((run f sched (twoGets zero c.data w k)).env = w ∨
        (run f sched (twoGets zero c.data w k)).env = (f k w).2) ∧
      ∀ (i j : Nat) (p q : Pc T),
        (run f sched (twoGets zero c.data w k)).pcs[i]? = some p →
        (run f sched (twoGets zero c.data w k)).pcs[j]? = some q →
        p.inW = true → q.inW = true → i = j) ∧
    (∀ sched : List Nat, allDone (run f sched (twoGets zero c.data w k)) = true →
      (run f sched (twoGets zero c.data w k)).users = [(f k w).1, (f k w).1] ∧
      (run f sched (twoGets zero c.data w k)).env = (f k w).2 ∧
      (run f sched (twoGets zero c.data w k)).data k = some (f k w).1) ∧
    (∀ pre : List Nat, ∃ post,
      allDone (run f (pre ++ post) (twoGets zero c.data w k)) = true) := by
  refine ⟨twoGets_miss_first zero c.data w k f habsent, fun sched => ?_, fun sched hd => ?_,
    fun pre => ?_⟩
  · obtain ⟨hk, hl⟩ := twoGets_run_inv zero c.data w k f habsent sched
    refine ⟨hk.env, fun i j p q hp hq hpW hqW => ?_⟩
    by_contra hij
    have := hl.exclusive hp hpW j q (fun e => hij e.symm) hq
    rw [hqW] at this
    cases this
  · obtain ⟨hk, -⟩ := twoGets_run_inv zero c.data w k f habsent sched
    have hlen := run_pcs_length f sched (twoGets zero c.data w k)
    have hne : (run f sched (twoGets zero c.data w k)).pcs ≠ [] := by
      intro e
      rw [e] at hlen
      cases hlen
    obtain ⟨hu, he, hdata⟩ := hk.of_allDone hd hne
    refine ⟨?_, he, hdata⟩
    rw [hu]
    generalize (run f sched (twoGets zero c.data w k)).pcs = l at hlen
    match l, hlen with
    | [_, _], _ => rfl
  · obtain ⟨-, hl⟩ := twoGets_run_inv zero c.data w k f habsent pre
    obtain ⟨post, hpost⟩ := exists_completion f _ _ (Nat.le_refl _) hl
    exact ⟨post, by rw [run_append]; exact hpost⟩

/-- C7 as stated fails: with a fetcher that counts its runs, two concurrent calls
`Get(1, f)` on an empty cache never reach a state in which both have fetched and
neither has stored, and the count never reaches 2. -/
theorem concurrent_miss_no_double_fetch :
    (¬ ∃ (sched : List Nat) (v v' : User),
      (run (countingFetcher fun _ => User.zero) sched
        (twoGets User.zero (NewCache User).data 0 1)).pcs = [Pc.store 1 v, Pc.store 1 v']) ∧
    (¬ ∃ sched : List Nat,
      2 ≤ (run (countingFetcher fun _ => User.zero) sched
        (twoGets User.zero (NewCache User).data 0 1)).env) := by
  constructor
  · rintro ⟨sched, v, v', h⟩
    obtain ⟨-, hl⟩ := twoGets_run_inv User.zero (NewCache User).data 0 1
      (countingFetcher fun _ => User.zero) rfl sched
    have := @LockInv.exclusive _ _ _ 0 (Pc.store 1 v) hl (by rw [h]; simp) rfl 1 (Pc.store 1 v')
      (by decide) (by rw [h]; simp)
    cases this
  · rintro ⟨sched, h⟩
    obtain ⟨hk, -⟩ := twoGets_run_inv User.zero (NewCache User).data 0 1
      (countingFetcher fun _ => User.zero) rfl sched
    rcases hk.env with he | he
    · rw [he] at h
      cases h
    · rw [he] at h
      simp [countingFetcher] at h

/-! ## `Cache.Get` is the machine run by a single caller -/

theorem get_is_solo_run {T σ : Type} (zero : T) (c : Cache T) (id : Int) (f : Fetcher T σ)
    (w : σ) :
    run f (List.replicate 9 0) (initState zero c.data w [Pc.rlock id]) =
      { data := (c.Get id f w).cache.data, mu := RWMutex.free, env := (c.Get id f w).env,
        pcs := [Pc.done], users := [(c.Get id f w).val] } := by
  cases hd : c.data id with
  | some v =>
    rw [Cache.Get_hit c id f w v hd]
    simp [run, step, initState, RWMutex.free, RWMutex.RLock, RWMutex.RUnlock, hd,
      List.replicate]
  | none =>
    rw [Cache.Get_miss c id f w hd]
    simp [run, step, initState, RWMutex.free, RWMutex.RLock, RWMutex.RUnlock, RWMutex.Lock,
      RWMutex.Unlock, hd, List.replicate]

/-! ## The theorems at concrete inputs -/

theorem get_contract_witness :
    ((NewCache User).Get 1 mainDB.GetUser 0).val = (mainDB.GetUser 1 0).1 ∧
    ((NewCache User).Get 1 mainDB.GetUser 0).cache.data 1 = some (mainDB.GetUser 1 0).1 ∧
    ((NewCache User).Get 1 mainDB.GetUser 0).env = (mainDB.GetUser 1 0).2 ∧
    ∀ k, k ≠ 1 → ((NewCache User).Get 1 mainDB.GetUser 0).cache.data k = (NewCache User).data k :=
  (get_contract (NewCache User) 1 mainDB.GetUser 0).2 rfl

theorem warm_path_witness :
    (NewCache User).data 1 = none ∧
    (runGets ((NewCache User).Get 1 mainDB.GetUser 0).cache
        ((NewCache User).Get 1 mainDB.GetUser 0).env [(2, mainDB.GetUser)]).1.Get 1
        (countingFetcher fun _ => User.zero) 0 =
      ⟨((NewCache User).Get 1 mainDB.GetUser 0).val,
        (runGets ((NewCache User).Get 1 mainDB.GetUser 0).cache
          ((NewCache User).Get 1 mainDB.GetUser 0).env [(2, mainDB.GetUser)]).1, 0⟩ :=
  ⟨rfl, warm_path (NewCache User) 0 1 mainDB.GetUser [(2, mainDB.GetUser)]
    (countingFetcher fun _ => User.zero) 0 rfl⟩

theorem entries_kept_witness :
    ((NewCache User).Get 1 mainDB.GetUser 0).cache.data 1 = some ⟨1, "John Doe"⟩ ∧
    (((NewCache User).Get 1 mainDB.GetUser 0).cache.Get 2 mainDB.GetUser 100).cache.data 1 =
      some ⟨1, "John Doe"⟩ ∧
    (runGets ((NewCache User).Get 1 mainDB.GetUser 0).cache 100
      [(2, mainDB.GetUser), (1, mainDB.GetUser)]).1.data 1 = some ⟨1, "John Doe"⟩ :=
  ⟨rfl,
    (entries_kept ((NewCache User).Get 1 mainDB.GetUser 0).cache 100 1 ⟨1, "John Doe"⟩ rfl).1
      2 mainDB.GetUser,
    (entries_kept ((NewCache User).Get 1 mainDB.GetUser 0).cache 100 1 ⟨1, "John Doe"⟩ rfl).2
      [(2, mainDB.GetUser), (1, mainDB.GetUser)]⟩

theorem fetch_once_witness :
    (NewCache User).data 2 = none ∧ 1 ≤ 3 ∧
    (getN 2 mainDB.GetUser 3 (NewCache User) 0).1 =
      List.replicate 3 (mainDB.GetUser 2 0).1 ∧
    (getN 2 mainDB.GetUser 3 (NewCache User) 0).2.2 = (mainDB.GetUser 2 0).2 ∧
    ∀ (v : Int → User) (n : Nat), (getN 2 (countingFetcher v) 3 (NewCache User) n).2.2 = n + 1 :=
  ⟨rfl, by decide, fetch_once (NewCache User) 2 mainDB.GetUser 0 3 rfl (by decide)⟩

theorem fanout_order_independent_witness :
    (∀ (id : Int) (w : Nat), (mainDB.GetUser id w).1 = (mainDB.users id).getD User.zero) ∧
    (fanOut mainDB.GetUser (NewCache User) 0 ["1", "x", "2"] (taskSched [2, 0, 1])).isSome
      = true ∧
    (∀ sched r, fanOut mainDB.GetUser (NewCache User) 0 ["1", "x", "2"] sched = some r →
      r.users[2]? = some ⟨2, "Jane Doe"⟩) :=
  ⟨fun _ _ => rfl,
    (fanout_order_independent mainDB.GetUser (fun id => (mainDB.users id).getD User.zero)
      (NewCache User) 0 ["1", "x", "2"] (fun _ _ => rfl)).1 [2, 0, 1] (by decide),
    fun sched r hr =>
      ((fanout_order_independent mainDB.GetUser (fun id => (mainDB.users id).getD User.zero)
        (NewCache User) 0 ["1", "x", "2"] (fun _ _ => rfl)).2.2.1 sched r hr).2 2 "2" 2 rfl
        (by decide)⟩

theorem invalid_id_skipped_witness :
    (["1", "x", "2"] : List String)[1]? = some "x" ∧ Atoi "x" = none ∧
    (∃ r, fanOut mainDB.GetUser (NewCache User) 0 ["1", "x", "2"] (taskSched [2, 1, 0])
        = some r ∧ r.users[1]? = some User.zero) ∧
    (∃ r, fanOut mainDB.GetUser (NewCache User) 0 ["1", "x", "2"] (taskSched [2, 1, 0])
        = some r ∧ r.users = [⟨1, "John Doe"⟩, User.zero, ⟨2, "Jane Doe"⟩]) ∧
    (∀ sched r, fanOut mainDB.GetUser (NewCache User) 0 ["1", "x", "2"] sched = some r →
      r.users[1]? = some User.zero) :=
  ⟨rfl, by decide,
    (invalid_id_skipped mainDB.GetUser (fun id => (mainDB.users id).getD User.zero)
      (NewCache User) 0 ["1", "x", "2"] 1 "x" (fun _ _ => rfl) rfl (by decide)).1
      [2, 1, 0] (by decide),
    (invalid_id_skipped mainDB.GetUser (fun id => (mainDB.users id).getD User.zero)
      (NewCache User) 0 ["1", "x", "2"] 1 "x" (fun _ _ => rfl) rfl
      (by decide)).2.2.2.2.2.2.2.2.1 [2, 1, 0] (by decide),
    (invalid_id_skipped mainDB.GetUser (fun id => (mainDB.users id).getD User.zero)
      (NewCache User) 0 ["1", "x", "2"] 1 "x" (fun _ _ => rfl) rfl (by decide)).2.2.1⟩

theorem missing_id_rejected_witness :
    handler mainDB (NewCache User) 0 (some ["", "1"]) [] =
      some ⟨.badRequest "Missing user id", NewCache User, 0⟩ ∧
    ∃ sched', (handler mainDB (NewCache User) 0 (some ["1", ""]) sched').isSome = true :=
  ⟨(missing_id_rejected mainDB (NewCache User) 0 none []).2.2.1,
    (missing_id_rejected mainDB (NewCache User) 0 none []).2.2.2.2⟩

theorem unknown_id_zero_witness :
    Consistent mainDB (NewCache User) ∧ mainDB.users 7 = none ∧
    ((NewCache User).Get 7 mainDB.GetUser 0).val = User.zero ∧
    ((NewCache User).Get 7 mainDB.GetUser 0).cache.data 7 = some User.zero :=
  ⟨Consistent.new mainDB, rfl,
    (unknown_id_zero mainDB (NewCache User) 7 0 (Consistent.new mainDB) rfl).1,
    (unknown_id_zero mainDB (NewCache User) 7 0 (Consistent.new mainDB) rfl).2.1⟩

theorem concurrent_miss_single_fetch_witness :
    (NewCache User).data 1 = none ∧
    (∀ sched : List Nat,
      allDone (run mainDB.GetUser sched (twoGets User.zero (NewCache User).data 0 1)) = true →
      (run mainDB.GetUser sched (twoGets User.zero (NewCache User).data 0 1)).users =
        [(mainDB.GetUser 1 0).1, (mainDB.GetUser 1 0).1] ∧
      (run mainDB.GetUser sched (twoGets User.zero (NewCache User).data 0 1)).env =
        (mainDB.GetUser 1 0).2 ∧
      (run mainDB.GetUser sched (twoGets User.zero (NewCache User).data 0 1)).data 1 =
        some (mainDB.GetUser 1 0).1) :=
  ⟨rfl, (concurrent_miss_single_fetch User.zero (NewCache User) 0 1 mainDB.GetUser rfl).2.2.1⟩

theorem library_add_get_witness :
    ((NewLibrary.AddBook ⟨1, "Go Programming", "John Doe"⟩).AddBook
        ⟨2, "Advanced Go", "Jane Smith"⟩).GetBook 2 = (⟨2, "Advanced Go", "Jane Smith"⟩, true) ∧
    ((NewLibrary.AddBook ⟨1, "Go Programming", "John Doe"⟩).AddBook
        ⟨2, "Advanced Go", "Jane Smith"⟩).GetBook 1 =
      (NewLibrary.AddBook ⟨1, "Go Programming", "John Doe"⟩).GetBook 1 :=
  ⟨(library_add_get (NewLibrary.AddBook ⟨1, "Go Programming", "John Doe"⟩)
      ⟨2, "Advanced Go", "Jane Smith"⟩).1,
    (library_add_get (NewLibrary.AddBook ⟨1, "Go Programming", "John Doe"⟩)
      ⟨2, "Advanced Go", "Jane Smith"⟩).2.1 1 (by decide)⟩

end Bootcamp
